import Mathlib

/-!
# Verification of the libsass selector-extension engine

This file is a shallow embedding of the selector-extension core of the
repository (`src/src/extend.cpp`) together with theorems settling the frozen
claims about it.  The functions of `extend.cpp` (`trim`, `chunks`,
`mergeInitialOps`, `mergeFinalOps`, `subweave`, `weave`, the LCS routines,
`extendCompoundSelector` / `extendComplexSelector` / `extendSelectorList` and
the final unsatisfied-extend check) are translated from the C++ source.
Operations of the selector AST that live in files the repository does not
ship (`ast.cpp`, `subset_map.hpp`, `paths.hpp`, `node.cpp`,
`remove_placeholders.cpp`) are modelled from the specification and marked as
such in their doc comments.
-/

namespace Sass

/-- Combinator of a complex-selector node (`Complex_Selector::Combinator` as
used throughout `extend.cpp`): `ANCESTOR_OF` (descendant, also "no leading
combinator"), `PARENT_OF` (`>`), `PRECEDES` (`~`), `ADJACENT_TO` (`+`) and
`REFERENCE` (`/.../`). -/
inductive Comb where
  | ancestorOf
  | parentOf
  | precedes
  | adjacentTo
  | reference
deriving DecidableEq, Repr

/-- Modelled from the spec: a simple selector (spec §3) is a tagged variant
covering type, class, id, pseudo-class, pseudo-element, attribute and
placeholder selectors (the `Simple_Selector` hierarchy lives in `ast.hpp` /
`ast.cpp`, which are not part of the repository's files; the wrapped variant
is outside this model). -/
inductive Simple where
  | typ (name : String)
  | cls (name : String)
  | idSel (name : String)
  | pseudoCls (name : String)
  | pseudoElt (name : String)
  | attr (name : String)
  | placeholder (name : String)
deriving DecidableEq, Repr

/-- Modelled from the spec: specificity weights of a simple selector
(spec §4.3): ids times 10000, classes, attributes and pseudo-classes times
100, types and pseudo-elements times 1 (`Simple_Selector::specificity` is in
`ast.cpp`, not part of the repository's files).  Placeholders contribute 0. -/
def simpleSpec : Simple → Nat
  | .idSel _ => 10000
  | .cls _ => 100
  | .attr _ => 100
  | .pseudoCls _ => 100
  | .typ _ => 1
  | .pseudoElt _ => 1
  | .placeholder _ => 0

/-- A bare complex-selector link: a combinator and the simple selectors of
its head compound.  Bare links are what the model stores inside a sources
set (spec §3 and §9 recommend flat source values over back-pointers; only
the specificity and identity of a source are ever consumed). -/
structure BareLink where
  comb : Comb
  sels : List Simple
deriving DecidableEq, Repr

/-- A bare complex selector: the chain of bare links. -/
abbrev BareCplx := List BareLink

/-- Compound selector (`Compound_Selector` of the AST, spec §3): an ordered
sequence of simple selectors plus the sources set that trim and extension
propagate. -/
structure Cpd where
  sels : List Simple
  sources : List BareCplx
deriving DecidableEq, Repr

/-- One link of a complex selector: the combinator describes the relationship
between the previous node and this one (spec §3; the first link of a chain
carries `ANCESTOR_OF`, meaning "no leading combinator"). -/
structure Link where
  comb : Comb
  head : Cpd
deriving DecidableEq, Repr

/-- Complex selector (`Complex_Selector` of the AST): the chain of links,
outermost first. -/
abbrev Cplx := List Link

/-- Specificity of a compound selector: the sum over its simple selectors
(spec §4.3). -/
def cpdSpec (c : Cpd) : Nat := (c.sels.map simpleSpec).sum

/-- Specificity of a complex selector: the sum over its compounds
(spec §4.3). -/
def cplxSpec (c : Cplx) : Nat := (c.map (fun l => cpdSpec l.head)).sum

/-- Specificity of a bare complex selector (a sources-set element). -/
def bareSpec (c : BareCplx) : Nat := (c.map (fun l => (l.sels.map simpleSpec).sum)).sum

/-- Set-union of two duplicate-free lists, keeping insertion order: the
model of inserting into a `SourcesSet`. -/
def dedupMerge {β : Type} [DecidableEq β] (a b : List β) : List β :=
  a ++ b.filter (fun x => ! a.contains x)

/-- Sources of a complex selector: the union of the sources of its heads
(ruby `Sequence#sources`; `Complex_Selector::sources` is in `ast.cpp`, not
part of the repository's files, so this follows spec §3: "Each complex
selector also carries a sources set"). -/
def cplxSources (c : Cplx) : List BareCplx :=
  (c.map (fun l => l.head.sources)).foldl dedupMerge []

/-- Forget the sources of a complex selector, keeping combinators and simple
selectors: the value stored when the selector enters a sources set. -/
def stripCplx (c : Cplx) : BareCplx := c.map (fun l => ⟨l.comb, l.head.sels⟩)

/-- Modelled from the spec: compound superselector test (spec §4.2, "for
compounds this is set-containment"): every simple selector of `a` appears in
`b`, so `a` matches a superset of the elements `b` matches
(`Compound_Selector::is_superselector_of` is in `ast.cpp`, not part of the
repository's files). -/
def cpdSuper (a b : Cpd) : Bool := a.sels.all (fun s => b.sels.contains s)

/-- Modelled from the spec: complex superselector test on reversed chains
(innermost link first).  Spec §4.2: the walk matches heads by compound
superselector and lets combinators agree up to `ANCESTOR_OF ⊇ PARENT_OF` and
`PRECEDES ⊇ ADJACENT_TO`; a descendant or general-sibling step on the
superselector side may skip nodes of the subselector side
(`Complex_Selector::is_superselector_of` is in `ast.cpp`, not part of the
repository's files). -/
def supRev : List Link → List Link → Bool
  | [], _ => true
  | _ :: _, [] => false
  | la :: a, lb :: b =>
    cpdSuper la.head lb.head &&
    match la.comb, lb.comb with
    | .ancestorOf, .ancestorOf => (b.tails).any (fun s => supRev a s)
    | .ancestorOf, .parentOf => (b.tails).any (fun s => supRev a s)
    | .parentOf, .parentOf => supRev a b
    | .precedes, .precedes => (b.tails).any (fun s => supRev a s)
    | .precedes, .adjacentTo => (b.tails).any (fun s => supRev a s)
    | .adjacentTo, .adjacentTo => supRev a b
    | .reference, .reference => supRev a b
    | _, _ => false

/-- Complex superselector test, outermost-first chains. -/
def isSuperC (a b : Cplx) : Bool := supRev a.reverse b.reverse

/-- A compound selector is a superselector of itself: set containment is
reflexive. -/
theorem cpdSuper_refl (c : Cpd) : cpdSuper c c = true := by
  simp [cpdSuper, List.all_eq_true]

/-- The reversed-chain superselector walk is reflexive. -/
theorem supRev_refl (l : List Link) : supRev l l = true := by
  induction l with
  | nil => rfl
  | cons hd tl ih =>
    rw [supRev, Bool.and_eq_true]
    refine ⟨cpdSuper_refl _, ?_⟩
    have hmem : tl ∈ tl.tails := by
      cases tl <;> simp [List.tails]
    have hany : (tl.tails).any (fun s => supRev tl s) = true :=
      List.any_eq_true.mpr ⟨tl, hmem, ih⟩
    cases hd.comb <;> simp [hany, ih]

/-- The complex superselector test is reflexive (spec §8, "Superselector
reflexivity"). -/
theorem isSuperC_refl (c : Cplx) : isSuperC c c = true := supRev_refl _

/-! ## Trim (`extend.cpp:529-649`)

`trim` is generic in the selector type: `spec` is `specificity()`, `srcSpecs`
lists the specificities of the `sources()` set and `isSuper` is
`is_superselector_of` (those three live in `ast.cpp`, which is not part of
the repository's files; the `Cplx` model instantiates them below). -/

section Trim

variable {α : Type} (spec : α → Nat) (srcSpecs : α → List Nat)
variable (isSuper : α → α → Bool) (isReplace : Bool)

/-- Maximum specificity threshold computed for `seq1` at `extend.cpp:572-581`:
start from `specificity(seq1)` when `isReplace` and from 0 otherwise, then
take the maximum with the specificity of every source of `seq1`. -/
def trimMaxSpec (s1 : α) : Nat :=
  (srcSpecs s1).foldl max (if isReplace then spec s1 else 0)

/-- The dominance test of `trim`'s inner loop (`extend.cpp:615`):
`pSeq2->specificity() >= maxSpecificity && pSeq2->is_superselector_of(pSeq1)`. -/
def trimDominates (s2 s1 : α) : Bool :=
  decide (trimMaxSpec spec srcSpecs isReplace s1 ≤ spec s2) && isSuper s2 s1

/-- One group's pass of `trim` (`extend.cpp:559-637`): keep `s1` unless a
selector of one of the `others` groups dominates it. -/
def trimFilterGroup (others : List (List α)) (g : List α) : List α :=
  g.filter fun s1 =>
    ! others.any fun g2 => g2.any fun s2 => trimDominates spec srcSpecs isSuper isReplace s2 s1

/-- The main loop of `trim` (`extend.cpp:549-646`): `pre` is the prefix of
the working result already processed and written back (`extend.cpp:641`),
`rest` the groups still to process.  A group being processed is compared
against every group of the working result except itself — the pointer
comparison at `extend.cpp:599` skips exactly the group's own position — so
the comparison set is `pre ++ rest`. -/
def trimLoop : List (List α) → List (List α) → List (List α)
  | pre, [] => pre
  | pre, g :: rest =>
      trimLoop
        (pre ++ [trimFilterGroup spec srcSpecs isSuper isReplace (pre ++ rest) g]) rest

/-- `trim` (`extend.cpp:529-649`): remove dominated selectors, except that an
input with more than 100 groups is returned unchanged (`extend.cpp:533-535`). -/
def trim (seqses : List (List α)) : List (List α) :=
  if seqses.length > 100 then seqses
  else trimLoop spec srcSpecs isSuper isReplace [] seqses

theorem trimLoop_length (rest : List (List α)) : ∀ pre,
    (trimLoop spec srcSpecs isSuper isReplace pre rest).length =
      pre.length + rest.length := by
  induction rest with
  | nil => intro pre; simp [trimLoop]
  | cons g rest ih =>
    intro pre
    rw [trimLoop, ih]
    simp
    omega

theorem trimLoop_take (rest : List (List α)) : ∀ pre,
    (trimLoop spec srcSpecs isSuper isReplace pre rest).take pre.length = pre := by
  induction rest with
  | nil => intro pre; simp [trimLoop]
  | cons g rest ih =>
    intro pre
    rw [trimLoop]
    have h := ih (pre ++ [trimFilterGroup spec srcSpecs isSuper isReplace (pre ++ rest) g])
    have hmin : pre.length = min pre.length
        (pre ++ [trimFilterGroup spec srcSpecs isSuper isReplace (pre ++ rest) g]).length := by
      simp
    calc (trimLoop spec srcSpecs isSuper isReplace
            (pre ++ [trimFilterGroup spec srcSpecs isSuper isReplace (pre ++ rest) g])
            rest).take pre.length
        = ((trimLoop spec srcSpecs isSuper isReplace
            (pre ++ [trimFilterGroup spec srcSpecs isSuper isReplace (pre ++ rest) g])
            rest).take (pre ++ [trimFilterGroup spec srcSpecs isSuper isReplace
              (pre ++ rest) g]).length).take pre.length := by
          rw [List.take_take, ← hmin]
      _ = pre := by rw [h]; simp

theorem trimLoop_getElem? (rest : List (List α)) : ∀ pre k, k < rest.length →
    (trimLoop spec srcSpecs isSuper isReplace pre rest)[pre.length + k]? =
      some (trimFilterGroup spec srcSpecs isSuper isReplace
        ((trimLoop spec srcSpecs isSuper isReplace pre rest).take (pre.length + k) ++
          rest.drop (k + 1))
        (rest.getD k [])) := by
  induction rest with
  | nil => intro pre k hk; exact absurd hk (by simp)
  | cons g rest ih =>
    intro pre k hk
    match k with
    | 0 =>
      rw [trimLoop]
      set g' := trimFilterGroup spec srcSpecs isSuper isReplace (pre ++ rest) g with hg
      have htk := trimLoop_take spec srcSpecs isSuper isReplace rest (pre ++ [g'])
      have hlen := trimLoop_length spec srcSpecs isSuper isReplace rest (pre ++ [g'])
      -- the element at index pre.length is g'
      have hidx : (trimLoop spec srcSpecs isSuper isReplace (pre ++ [g']) rest)[pre.length]? =
          some g' := by
        have hlt : pre.length < (pre ++ [g']).length := by simp
        have : ((trimLoop spec srcSpecs isSuper isReplace (pre ++ [g']) rest).take
            (pre ++ [g']).length)[pre.length]? = some g' := by
          rw [htk]
          rw [List.getElem?_append_right (by simp)]
          simp
        rwa [List.getElem?_take_of_lt hlt] at this
      -- the take at index pre.length is pre
      have htake0 : (trimLoop spec srcSpecs isSuper isReplace (pre ++ [g']) rest).take
          pre.length = pre := by
        have hmin : pre.length = min pre.length (pre ++ [g']).length := by simp
        calc (trimLoop spec srcSpecs isSuper isReplace (pre ++ [g']) rest).take pre.length
            = ((trimLoop spec srcSpecs isSuper isReplace (pre ++ [g']) rest).take
                (pre ++ [g']).length).take pre.length := by rw [List.take_take, ← hmin]
          _ = pre := by rw [htk]; simp
      rw [Nat.add_zero, hidx, htake0]
      simp [hg]
    | k + 1 =>
      rw [trimLoop]
      set g' := trimFilterGroup spec srcSpecs isSuper isReplace (pre ++ rest) g with hg
      have := ih (pre ++ [g']) k (by simpa using Nat.lt_of_succ_lt_succ hk)
      have harith : (pre ++ [g']).length + k = pre.length + (k + 1) := by simp; omega
      rw [harith] at this
      simpa using this

theorem trim_getElem? (gs : List (List α)) (i : Nat) (h100 : gs.length ≤ 100)
    (hi : i < gs.length) :
    (trim spec srcSpecs isSuper isReplace gs)[i]? =
      some (trimFilterGroup spec srcSpecs isSuper isReplace
        ((trim spec srcSpecs isSuper isReplace gs).take i ++ gs.drop (i + 1))
        (gs.getD i [])) := by
  have hnot : ¬ gs.length > 100 := by omega
  rw [trim, if_neg hnot]
  simpa using trimLoop_getElem? spec srcSpecs isSuper isReplace gs [] i hi

/-- Membership characterization of `trim`'s output: a selector of input group
`i` survives exactly when no selector of another group of the working result
(groups before `i` already trimmed, groups after `i` still as in the input)
dominates it. -/
theorem trim_mem_getD (gs : List (List α)) (i : Nat) (s1 : α)
    (h100 : gs.length ≤ 100) (hi : i < gs.length) :
    s1 ∈ (trim spec srcSpecs isSuper isReplace gs).getD i [] ↔
      s1 ∈ gs.getD i [] ∧
        ¬ ∃ g2 ∈ (trim spec srcSpecs isSuper isReplace gs).take i ++ gs.drop (i + 1),
            ∃ s2 ∈ g2, trimDominates spec srcSpecs isSuper isReplace s2 s1 = true := by
  have h := trim_getElem? spec srcSpecs isSuper isReplace gs i h100 hi
  have hgd : (trim spec srcSpecs isSuper isReplace gs).getD i [] =
      trimFilterGroup spec srcSpecs isSuper isReplace
        ((trim spec srcSpecs isSuper isReplace gs).take i ++ gs.drop (i + 1))
        (gs.getD i []) := by
    rw [List.getD_eq_getElem?_getD, h]
    rfl
  rw [hgd, trimFilterGroup, List.mem_filter]
  simp [List.any_eq_true]
  intro _
  constructor
  · rintro ⟨ha, hb⟩ x hx
    cases hx with
    | inl hmem => exact ha x hmem
    | inr hmem => exact hb x hmem
  · intro hc
    exact ⟨fun x hx => hc x (Or.inl hx), fun x hx => hc x (Or.inr hx)⟩

/-- Trim never invents selectors: each output group is a subset of the
corresponding input group. -/
theorem trim_mem_subset (gs : List (List α)) (i : Nat) (t : α)
    (ht : t ∈ (trim spec srcSpecs isSuper isReplace gs).getD i []) :
    t ∈ gs.getD i [] := by
  by_cases h100 : gs.length ≤ 100
  · by_cases hi : i < gs.length
    · exact ((trim_mem_getD spec srcSpecs isSuper isReplace gs i t h100 hi).mp ht).1
    · have hlen : (trim spec srcSpecs isSuper isReplace gs).length = gs.length := by
        rw [trim]
        split
        · rfl
        · simpa using trimLoop_length spec srcSpecs isSuper isReplace gs []
      have : (trim spec srcSpecs isSuper isReplace gs).getD i [] = [] := by
        rw [List.getD_eq_getElem?_getD, List.getElem?_eq_none (by omega)]
        rfl
      rw [this] at ht
      exact absurd ht (List.not_mem_nil t)
  · rw [trim, if_pos (by omega)] at ht
    exact ht

end Trim

/-- An element of a `take` prefix sits at an index below the cut. -/
theorem mem_take_index {β : Type} (l : List β) (j : Nat) (g : β) (d : β)
    (h : g ∈ l.take j) : ∃ k, k < j ∧ k < l.length ∧ g = l.getD k d := by
  obtain ⟨k, hk, he⟩ := List.mem_iff_getElem.mp h
  have hk1 : k < j := lt_of_lt_of_le hk (by simp [List.length_take])
  have hk2 : k < l.length := lt_of_lt_of_le hk (by simp [List.length_take])
  refine ⟨k, hk1, hk2, ?_⟩
  rw [List.getD_eq_getElem l d hk2, ← he, List.getElem_take]

/-- An element of a `drop` suffix sits at an index at or past the cut. -/
theorem mem_drop_index {β : Type} (l : List β) (m : Nat) (g : β) (d : β)
    (h : g ∈ l.drop m) : ∃ k, m ≤ k ∧ k < l.length ∧ g = l.getD k d := by
  obtain ⟨k, hk, he⟩ := List.mem_iff_getElem.mp h
  have hk2 : m + k < l.length := by
    have := hk
    simp [List.length_drop] at this
    omega
  refine ⟨m + k, by omega, hk2, ?_⟩
  rw [List.getD_eq_getElem l d hk2, ← he, List.getElem_drop]

/-- The element at an index past the cut belongs to the `drop` suffix. -/
theorem getD_mem_drop {β : Type} (l : List β) (m j : Nat) (d : β)
    (hmj : m ≤ j) (hj : j < l.length) : l.getD j d ∈ l.drop m := by
  have hd : j - m < (l.drop m).length := by simp [List.length_drop]; omega
  have : (l.drop m)[j - m] = l[j] := by
    rw [List.getElem_drop]
    congr 1
    omega
  rw [List.getD_eq_getElem l d hj, ← this]
  exact List.getElem_mem hd

/-! ## The trim claims (C1, C8, C9) -/

/-- Source-specificity list of a complex selector of the model, as `trim`'s
loop at `extend.cpp:578-581` consumes the sources set. -/
def cplxSrcSpecs (c : Cplx) : List Nat := (cplxSources c).map bareSpec

/-- `trim` instantiated at the modelled selector algebra. -/
def trimC (isReplace : Bool) (gs : List (List Cplx)) : List (List Cplx) :=
  trim cplxSpec cplxSrcSpecs isSuperC isReplace gs

/-- The threshold exactly as claim C1 words it: max of `specificity(s1)` and
the specificity of every source of s1; `specificity(s1)` alone when
`isReplace`.  Written from the claim's words, to be compared with the
source's `trimMaxSpec`. -/
def claimC1Threshold {α : Type} (spec : α → Nat) (srcSpecs : α → List Nat)
    (isReplace : Bool) (s1 : α) : Nat :=
  if isReplace then spec s1 else (srcSpecs s1).foldl max (spec s1)

/-- The dropping rule exactly as claim C1 states it: some other input group
`j ≠ i` holds an `s2` above the claim's threshold that is a superselector of
`s1`.  Written from the claim's words, to be compared with the source. -/
def claimC1Dropped {α : Type} (spec : α → Nat) (srcSpecs : α → List Nat)
    (isSuper : α → α → Bool) (isReplace : Bool)
    (gs : List (List α)) (i : Nat) (s1 : α) : Prop :=
  ∃ j ∈ List.range gs.length, j ≠ i ∧ ∃ s2 ∈ gs.getD j [],
    claimC1Threshold spec srcSpecs isReplace s1 ≤ spec s2 ∧ isSuper s2 s1 = true

/-- Concrete selector `.a.b`: specificity 200, no sources. -/
def cexBig : Cplx := [⟨.ancestorOf, ⟨[.cls "a", .cls "b"], []⟩⟩]

/-- Concrete selector `.a`: specificity 100, no sources, a superselector of
`.a.b`. -/
def cexSmall : Cplx := [⟨.ancestorOf, ⟨[.cls "a"], []⟩⟩]

/-- Counterexample to claim C1 as stated: with groups `[[.a.b], [.a]]` and
`isReplace = false`, `trim` drops `.a.b` from group 0 — the code's threshold
for a sourceless selector is 0 (`extend.cpp:572`), and `.a` has specificity
100 ≥ 0 and is a superselector — while the claim's threshold
`max(specificity(.a.b), sources) = 200` admits no dominator, so the claim
predicts `.a.b` is kept. -/
theorem trim_claimC1_counterexample :
    cexBig ∈ ([[cexBig], [cexSmall]] : List (List Cplx)).getD 0 [] ∧
      cexBig ∉ (trimC false [[cexBig], [cexSmall]]).getD 0 [] ∧
      ¬ claimC1Dropped cplxSpec cplxSrcSpecs isSuperC false
          [[cexBig], [cexSmall]] 0 cexBig := by
  refine ⟨by decide, by decide, ?_⟩
  unfold claimC1Dropped claimC1Threshold
  decide

/-- Claim C1 (amended): for every input to `trim` with at most 100 groups, a
selector `s1` in group `i` is dropped exactly when, at the moment group `i`
is processed, some other group of the working result — groups before `i`
already trimmed, groups after `i` still as in the input — holds an `s2` with
`specificity(s2) ≥ M` and `s2` a superselector of `s1`, where `M` is the
maximum specificity over `s1`'s sources (0 with none) when `isReplace` is
false, and the maximum of `specificity(s1)` and the sources' specificities
when `isReplace` is true. -/
theorem trim_drop_iff_working_result {α : Type} (spec : α → Nat)
    (srcSpecs : α → List Nat) (isSuper : α → α → Bool) (isReplace : Bool)
    (gs : List (List α)) (i : Nat) (s1 : α)
    (h100 : gs.length ≤ 100) (hi : i < gs.length) :
    s1 ∈ (trim spec srcSpecs isSuper isReplace gs).getD i [] ↔
      s1 ∈ gs.getD i [] ∧
        ¬ ∃ g2 ∈ (trim spec srcSpecs isSuper isReplace gs).take i ++ gs.drop (i + 1),
            ∃ s2 ∈ g2,
              trimMaxSpec spec srcSpecs isReplace s1 ≤ spec s2 ∧ isSuper s2 s1 = true := by
  rw [trim_mem_getD spec srcSpecs isSuper isReplace gs i s1 h100 hi]
  have hpred : ∀ s2 : α, trimDominates spec srcSpecs isSuper isReplace s2 s1 = true ↔
      (trimMaxSpec spec srcSpecs isReplace s1 ≤ spec s2 ∧ isSuper s2 s1 = true) := by
    intro s2
    simp [trimDominates]
  constructor
  · rintro ⟨h1, h2⟩
    refine ⟨h1, ?_⟩
    rintro ⟨g2, hg2, s2, hs2, hd⟩
    exact h2 ⟨g2, hg2, s2, hs2, (hpred s2).mpr hd⟩
  · rintro ⟨h1, h2⟩
    refine ⟨h1, ?_⟩
    rintro ⟨g2, hg2, s2, hs2, hd⟩
    exact h2 ⟨g2, hg2, s2, hs2, (hpred s2).mp hd⟩

/-- Witness for the amended C1 at a concrete input: one group holding `.a`. -/
theorem trim_drop_iff_working_result_witness :
    ([[cexSmall]] : List (List Cplx)).length ≤ 100 ∧
      0 < ([[cexSmall]] : List (List Cplx)).length ∧
      (cexSmall ∈ (trim cplxSpec cplxSrcSpecs isSuperC false [[cexSmall]]).getD 0 [] ↔
        cexSmall ∈ ([[cexSmall]] : List (List Cplx)).getD 0 [] ∧
          ¬ ∃ g2 ∈ (trim cplxSpec cplxSrcSpecs isSuperC false [[cexSmall]]).take 0 ++
                ([[cexSmall]] : List (List Cplx)).drop 1,
              ∃ s2 ∈ g2,
                trimMaxSpec cplxSpec cplxSrcSpecs false cexSmall ≤ cplxSpec s2 ∧
                  isSuperC s2 cexSmall = true) :=
  ⟨by decide, by decide,
    trim_drop_iff_working_result cplxSpec cplxSrcSpecs isSuperC false
      [[cexSmall]] 0 cexSmall (by decide) (by decide)⟩

/-- Claim C8: for every input whose number of groups exceeds 100, `trim`
returns the input unchanged; the dominance rule runs only when the group
count is at most 100 (`extend.cpp:533-535`). -/
theorem trim_cutoff_over_100 {α : Type} (spec : α → Nat) (srcSpecs : α → List Nat)
    (isSuper : α → α → Bool) (isReplace : Bool) (gs : List (List α))
    (h : 100 < gs.length) :
    trim spec srcSpecs isSuper isReplace gs = gs := by
  rw [trim, if_pos (by omega)]

/-- Witness for C8 at a concrete 101-group input. -/
theorem trim_cutoff_over_100_witness :
    100 < (List.replicate 101 ([] : List Cplx)).length ∧
      trim cplxSpec cplxSrcSpecs isSuperC false (List.replicate 101 []) =
        List.replicate 101 [] :=
  ⟨by simp, trim_cutoff_over_100 cplxSpec cplxSrcSpecs isSuperC false _ (by simp)⟩

/-- Counterexample to claim C9 as stated: two structurally identical copies
of `.a.b` sit in groups 1 and 2, and `trim` drops both — each is dominated by
the `.a` of group 0, a third selector, so "at most one of the two identical
copies is removed" fails. -/
theorem trim_identical_copies_counterexample :
    cexBig ∈ ([[cexSmall], [cexBig], [cexBig]] : List (List Cplx)).getD 1 [] ∧
      cexBig ∈ ([[cexSmall], [cexBig], [cexBig]] : List (List Cplx)).getD 2 [] ∧
      cexBig ∉ (trimC false [[cexSmall], [cexBig], [cexBig]]).getD 1 [] ∧
      cexBig ∉ (trimC false [[cexSmall], [cexBig], [cexBig]]).getD 2 [] := by
  refine ⟨by decide, by decide, by decide, by decide⟩

/-- Claim C9 (amended): when the only selectors anywhere in the input that
dominate `s` are (structurally equal copies of) `s` itself, the copy of `s`
in its last group always survives: each processed group is written back into
the working result before later groups are compared, and a group is never
compared against itself, so identical copies can only trim copies in earlier
groups. -/
theorem trim_last_identical_copy_survives {α : Type} (spec : α → Nat)
    (srcSpecs : α → List Nat) (isSuper : α → α → Bool) (isReplace : Bool)
    (gs : List (List α)) (j : Nat) (s : α)
    (h100 : gs.length ≤ 100) (hj : j < gs.length)
    (hmem : s ∈ gs.getD j [])
    (hlast : ∀ k, j < k → s ∉ gs.getD k [])
    (hdom : ∀ k t, k < gs.length → t ∈ gs.getD k [] →
      trimDominates spec srcSpecs isSuper isReplace t s = true → t = s) :
    s ∈ (trim spec srcSpecs isSuper isReplace gs).getD j [] := by
  rw [trim_mem_getD spec srcSpecs isSuper isReplace gs j s h100 hj]
  refine ⟨hmem, ?_⟩
  rintro ⟨g2, hg2, s2, hs2, hd2⟩
  rcases List.mem_append.mp hg2 with htake | hdrop
  · obtain ⟨k, hk1, hk2, hg2eq⟩ :=
      mem_take_index (trim spec srcSpecs isSuper isReplace gs) j g2 [] htake
    have hklen : k < gs.length := by
      have hlen : (trim spec srcSpecs isSuper isReplace gs).length = gs.length := by
        rw [trim]
        split
        · rfl
        · simpa using trimLoop_length spec srcSpecs isSuper isReplace gs []
      omega
    have hs2in : s2 ∈ gs.getD k [] :=
      trim_mem_subset spec srcSpecs isSuper isReplace gs k s2 (hg2eq ▸ hs2)
    have heq : s2 = s := hdom k s2 hklen hs2in hd2
    subst heq
    have hsk : s2 ∈ (trim spec srcSpecs isSuper isReplace gs).getD k [] := hg2eq ▸ hs2
    have hchar := (trim_mem_getD spec srcSpecs isSuper isReplace gs k s2 h100 hklen).mp hsk
    apply hchar.2
    refine ⟨gs.getD j [], ?_, s2, hmem, hd2⟩
    exact List.mem_append.mpr (Or.inr (getD_mem_drop gs (k + 1) j [] (by omega) hj))
  · obtain ⟨k, hk1, hk2, hg2eq⟩ := mem_drop_index gs (j + 1) g2 [] hdrop
    have heq : s2 = s := hdom k s2 hk2 (hg2eq ▸ hs2) hd2
    exact hlast k (by omega) (heq ▸ hg2eq ▸ hs2)

/-- Witness for the amended C9: two identical copies of `.a.b`, no other
selector; the later copy survives. -/
theorem trim_last_identical_copy_survives_witness :
    ([[cexBig], [cexBig]] : List (List Cplx)).length ≤ 100 ∧
      1 < ([[cexBig], [cexBig]] : List (List Cplx)).length ∧
      cexBig ∈ ([[cexBig], [cexBig]] : List (List Cplx)).getD 1 [] ∧
      cexBig ∈ (trim cplxSpec cplxSrcSpecs isSuperC false [[cexBig], [cexBig]]).getD 1 [] := by
  refine ⟨by decide, by decide, by decide, ?_⟩
  apply trim_last_identical_copy_survives cplxSpec cplxSrcSpecs isSuperC false
    [[cexBig], [cexBig]] 1 cexBig (by decide) (by decide) (by decide)
  · intro k hk
    have hout : ([[cexBig], [cexBig]] : List (List Cplx)).getD k [] = [] := by
      rw [List.getD_eq_getElem?_getD, List.getElem?_eq_none (by simpa using hk)]
      rfl
    rw [hout]
    exact List.not_mem_nil cexBig
  · intro k t hk ht _
    match k with
    | 0 => simpa using ht
    | 1 => simpa using ht

/-! ## The Node working type and its conversions

`Node` itself lives in `node.hpp` / `node.cpp`, which are not part of the
repository's files; spec §3 describes it. -/

/-- Modelled from the spec: the uniform working value of weave and trim
(spec §3, "Node"): a combinator, a selector wrapping a complex selector, or
an ordered collection of child nodes. -/
inductive WNode where
  | comb (c : Comb)
  | sel (s : Cplx)
  | coll (ns : List WNode)

mutual

/-- Structural equality of nodes. -/
def WNode.beq : WNode → WNode → Bool
  | .comb a, .comb b => decide (a = b)
  | .sel a, .sel b => decide (a = b)
  | .coll ns, .coll ms => WNode.beqs ns ms
  | _, _ => false

/-- Structural equality of node lists. -/
def WNode.beqs : List WNode → List WNode → Bool
  | [], [] => true
  | x :: xs, y :: ys => WNode.beq x y && WNode.beqs xs ys
  | _, _ => false

end

mutual

theorem WNode.beq_refl : ∀ a : WNode, WNode.beq a a = true
  | .comb _ => by simp [WNode.beq]
  | .sel _ => by simp [WNode.beq]
  | .coll ns => by simpa [WNode.beq] using WNode.beqs_refl ns

theorem WNode.beqs_refl : ∀ as : List WNode, WNode.beqs as as = true
  | [] => rfl
  | x :: xs => by
      rw [WNode.beqs, Bool.and_eq_true]
      exact ⟨WNode.beq_refl x, WNode.beqs_refl xs⟩

end

mutual

theorem WNode.eq_of_beq : ∀ {a b : WNode}, WNode.beq a b = true → a = b
  | .comb a, .comb b, h => by
      have hab : a = b := of_decide_eq_true (by simpa [WNode.beq] using h)
      rw [hab]
  | .comb _, .sel _, h => by simp [WNode.beq] at h
  | .comb _, .coll _, h => by simp [WNode.beq] at h
  | .sel _, .comb _, h => by simp [WNode.beq] at h
  | .sel a, .sel b, h => by
      have hab : a = b := of_decide_eq_true (by simpa [WNode.beq] using h)
      rw [hab]
  | .sel _, .coll _, h => by simp [WNode.beq] at h
  | .coll _, .comb _, h => by simp [WNode.beq] at h
  | .coll _, .sel _, h => by simp [WNode.beq] at h
  | .coll ns, .coll ms, h => by
      have hnm : ns = ms := WNode.eqs_of_beqs (by simpa [WNode.beq] using h)
      rw [hnm]

theorem WNode.eqs_of_beqs : ∀ {as bs : List WNode}, WNode.beqs as bs = true → as = bs
  | [], [], _ => rfl
  | [], _ :: _, h => by simp [WNode.beqs] at h
  | _ :: _, [], h => by simp [WNode.beqs] at h
  | x :: xs, y :: ys, h => by
      rw [WNode.beqs, Bool.and_eq_true] at h
      rw [WNode.eq_of_beq h.1, WNode.eqs_of_beqs h.2]

end

instance : DecidableEq WNode := fun a b =>
  if h : WNode.beq a b = true then isTrue (WNode.eq_of_beq h)
  else isFalse (fun he => h (he ▸ WNode.beq_refl a))

/-- Does a node hold a combinator (`Node::isCombinator`)? -/
def WNode.isComb : WNode → Bool
  | .comb _ => true
  | _ => false

/-- The children of a collection node; a non-collection is its own singleton
(the C++ dereferences `collection()` only on collections). -/
def WNode.asColl : WNode → List WNode
  | .coll ns => ns
  | n => [n]

/-- Modelled from the spec: rebuild a complex selector from a node sequence
(`nodeToComplexSelector` of `node.cpp`, not part of the repository's files):
a combinator node becomes the combinator of the next selector node's first
link; selector nodes contribute their wrapped links.  A collection met here
is skipped (weave only converts flattened sequences). -/
def nodesToLinks : Option Comb → List WNode → List Link
  | _, [] => []
  | _, .comb c :: rest => nodesToLinks (some c) rest
  | pc, .sel s :: rest =>
      (match pc, s with
       | some c, l :: ls => (⟨c, l.head⟩ : Link) :: ls
       | _, _ => s) ++ nodesToLinks none rest
  | pc, .coll _ :: rest => nodesToLinks pc rest

/-- A node sequence as a complex selector. -/
def nodesToCplx (l : List WNode) : Cplx := nodesToLinks none l

/-- Modelled from the spec: dissolve a complex selector into the node
sequence weave operates on (`complexSelectorToNode` of `node.cpp`, not part
of the repository's files): each link becomes its combinator node (omitted
for `ANCESTOR_OF`) followed by a selector node wrapping the single-link
complex. -/
def cplxToNodes (c : Cplx) : List WNode :=
  c.flatMap (fun l =>
    (if l.comb = Comb.ancestorOf then [] else [WNode.comb l.comb]) ++
      [WNode.sel [⟨Comb.ancestorOf, l.head⟩]])

/-- The synthetic `temp` type-selector link appended by
`parentSuperselector`. -/
def tempLink : Link := ⟨Comb.ancestorOf, ⟨[Simple.typ "temp"], []⟩⟩

/-- `parentSuperselector` (`extend.cpp:653-668`): append a synthetic `temp`
type selector to both chains as a trailing descendant and compare. -/
def parentSuperselectorN (one two : WNode) : Bool :=
  isSuperC (nodesToCplx one.asColl ++ [tempLink]) (nodesToCplx two.asColl ++ [tempLink])

/-! ## Chunks (`extend.cpp:725-773`) and claim C10 -/

/-- The chunk-1 loop of `chunks` (`extend.cpp:728-731`): pop from the front
into the chunk while the sequence is nonempty and the chunker does not hold
— the emptiness guard `seq1.collection()->size()` stops it on exhaustion. -/
def collectChunk1 (ck : List WNode → Bool) : List WNode → List WNode × List WNode
  | [] => ([], [])
  | x :: xs =>
    if ck (x :: xs) then ([], x :: xs)
    else
      let p := collectChunk1 ck xs
      (x :: p.1, p.2)

/-- The chunk-2 loop of `chunks` (`extend.cpp:734-737`): it has no emptiness
guard, so with a chunker that never holds the loop dereferences
`seq2.collection()->front()` on an empty deque; the model returns `none`
there. -/
def collectChunk2 (ck : List WNode → Bool) : List WNode → Option (List WNode × List WNode)
  | [] => if ck [] then some ([], []) else none
  | x :: xs =>
    if ck (x :: xs) then some ([], x :: xs)
    else (collectChunk2 ck xs).map (fun p => (x :: p.1, p.2))

/-- `chunks` (`extend.cpp:726-773`): both chunks empty gives no ordering, one
empty gives the other alone, otherwise both concatenation orders.  The
remaining sequences are returned too (the C++ pops them destructively);
`none` models the unguarded empty-deque access of the chunk-2 loop. -/
def chunks (ck : List WNode → Bool) (seq1 seq2 : List WNode) :
    Option (List WNode × List WNode × List WNode) :=
  let p1 := collectChunk1 ck seq1
  match collectChunk2 ck seq2 with
  | none => none
  | some p2 =>
    if p1.1 = [] ∧ p2.1 = [] then some ([], p1.2, p2.2)
    else if p1.1 = [] then some ([WNode.coll p2.1], p1.2, p2.2)
    else if p2.1 = [] then some ([WNode.coll p1.1], p1.2, p2.2)
    else some ([WNode.coll (p1.1 ++ p2.1), WNode.coll (p2.1 ++ p1.1)], p1.2, p2.2)

/-- `ParentSuperselectorChunker` (`extend.cpp:671-682`): false on an empty
sequence, otherwise `parent_superselector?(seq.first, lcs.first)` against the
head of the current LCS. -/
def psChunker (lcsFront : WNode) (seq : List WNode) : Bool :=
  match seq with
  | [] => false
  | x :: _ => parentSuperselectorN x lcsFront

/-- `SubweaveEmptyChunker` (`extend.cpp:684-691`): holds exactly on the empty
sequence, so the drain loop of `subweave`'s last `chunks` call always
terminates before the empty access. -/
def emptyChunker (seq : List WNode) : Bool := seq.isEmpty

theorem collectChunk2_none_iff (ck : List WNode → Bool) (l : List WNode) :
    collectChunk2 ck l = none ↔ ∀ t ∈ l.tails, ck t = false := by
  induction l with
  | nil =>
    constructor
    · intro h t ht
      simp [List.tails] at ht
      subst ht
      by_contra hc
      simp [collectChunk2, Bool.not_eq_false] at hc h
      simp [h] at hc
    · intro h
      simp [collectChunk2, h [] (by simp [List.tails])]
  | cons x xs ih =>
    constructor
    · intro h t ht
      rw [collectChunk2] at h
      by_cases hck : ck (x :: xs) = true
      · simp [hck] at h
      · rw [List.tails_cons] at ht
        rcases List.mem_cons.mp ht with hh | hh
        · subst hh
          simpa using hck
        · simp [hck] at h
          exact (ih.mp (by
            cases hcc : collectChunk2 ck xs with
            | none => rfl
            | some p => rw [hcc] at h; simp at h)) t hh
    · intro h
      rw [collectChunk2]
      have hck := h (x :: xs) (by rw [List.tails_cons]; exact List.mem_cons_self _ _)
      simp [hck]
      exact ih.mpr (fun t ht => h t (by rw [List.tails_cons]; exact List.mem_cons_of_mem _ ht))

theorem chunks_none_iff (ck : List WNode → Bool) (seq1 seq2 : List WNode) :
    chunks ck seq1 seq2 = none ↔ ∀ t ∈ seq2.tails, ck t = false := by
  rw [chunks, ← collectChunk2_none_iff]
  cases h : collectChunk2 ck seq2 with
  | none => simp
  | some p2 =>
    simp only [h]
    constructor
    · intro hc
      by_cases h1 : (collectChunk1 ck seq1).1 = [] ∧ p2.1 = [] <;>
        by_cases h2 : (collectChunk1 ck seq1).1 = [] <;>
        by_cases h3 : p2.1 = [] <;> simp [h1, h2, h3] at hc
    · intro hc
      exact absurd hc (by simp)

/-- Claim C10: the chunk-1 loop stops when its sequence empties even when the
chunker never holds; the chunk-2 loop has no such guard, so `chunks` is total
exactly when the chunker eventually holds on some suffix of `seq2` — and
`ParentSuperselectorChunker` returns false on the empty sequence, making the
empty-deque access reachable (shown at a concrete input). -/
theorem chunks_empty_seq2_access :
    (∀ l : List WNode, collectChunk1 (fun _ => false) l = (l, [])) ∧
      (∀ (ck : List WNode → Bool) (seq1 seq2 : List WNode),
        chunks ck seq1 seq2 = none ↔ ∀ t ∈ seq2.tails, ck t = false) ∧
      (∀ n : WNode, psChunker n [] = false) ∧
      chunks (psChunker (WNode.coll [WNode.sel [⟨Comb.ancestorOf, ⟨[Simple.cls "a"], []⟩⟩]]))
        [] [WNode.coll [WNode.sel [⟨Comb.ancestorOf, ⟨[Simple.cls "b"], []⟩⟩]]] = none := by
  refine ⟨?_, chunks_none_iff, fun n => rfl, by decide⟩
  intro l
  induction l with
  | nil => rfl
  | cons x xs ih => simp [collectChunk1, ih]

/-! ## Weave (`extend.cpp:1453-1505`) and claim C3

`weave` is generic in the subweave routine (`Extend::subweave`) it calls;
the instantiation at the embedded `subweave` comes after `subweave` itself. -/

/-- The inner loop over `befores` (`extend.cpp:1477-1498`): subweave each
`before` with the current selector (tail already popped), appending the
popped tail to every result; a nil subweave makes the whole weave return the
empty collection (`extend.cpp:1484-1486`), modelled as `none` here. -/
def weaveStep (sw : List WNode → List WNode → Option (List (List WNode)))
    (cur lastCur : List WNode) : List (List WNode) → Option (List (List WNode))
  | [] => some []
  | b :: bs =>
    match sw b cur with
    | none => none
    | some sub =>
      match weaveStep sw cur lastCur bs with
      | none => none
      | some rest => some (sub.map (fun seqs => seqs ++ lastCur) ++ rest)

/-- The outer loop of `weave` (`extend.cpp:1463-1502`): an empty current
element is skipped (`extend.cpp:1467`); otherwise its last node is popped and
the prefixes are extended through `weaveStep`. -/
def weaveLoop (sw : List WNode → List WNode → Option (List (List WNode))) :
    List (List WNode) → List (List WNode) → List (List WNode)
  | befores, [] => befores
  | befores, current :: rest =>
    if current = [] then weaveLoop sw befores rest
    else
      match weaveStep sw current.dropLast [current.getLastD (WNode.coll [])] befores with
      | none => []
      | some temp => weaveLoop sw temp rest

/-- `weave` (`extend.cpp:1453-1505`), generic in the subweave routine:
`befores` starts as the collection holding one empty collection. -/
def weaveG (sw : List WNode → List WNode → Option (List (List WNode)))
    (path : List (List WNode)) : List (List WNode) :=
  weaveLoop sw [[]] path

/-- The subweave results observed during one `weaveStep` pass, in call
order; the trace ends at the first nil because the code returns there. -/
def weaveStepTrace (sw : List WNode → List WNode → Option (List (List WNode)))
    (cur : List WNode) : List (List WNode) → List (Option (List (List WNode)))
  | [] => []
  | b :: bs =>
    match sw b cur with
    | none => [none]
    | some sub => some sub :: weaveStepTrace sw cur bs

/-- All subweave results observed while `weave` runs, in call order. -/
def weaveLoopTrace (sw : List WNode → List WNode → Option (List (List WNode))) :
    List (List WNode) → List (List WNode) → List (Option (List (List WNode)))
  | _, [] => []
  | befores, current :: rest =>
    if current = [] then weaveLoopTrace sw befores rest
    else
      weaveStepTrace sw current.dropLast befores ++
        match weaveStep sw current.dropLast [current.getLastD (WNode.coll [])] befores with
        | none => []
        | some temp => weaveLoopTrace sw temp rest

/-- The calls `weave path` makes to subweave, with their results, in order. -/
def weaveTrace (sw : List WNode → List WNode → Option (List (List WNode)))
    (path : List (List WNode)) : List (Option (List (List WNode))) :=
  weaveLoopTrace sw [[]] path

theorem weaveStepTrace_none_iff
    (sw : List WNode → List WNode → Option (List (List WNode)))
    (cur lastCur : List WNode) (befores : List (List WNode)) :
    none ∈ weaveStepTrace sw cur befores ↔ weaveStep sw cur lastCur befores = none := by
  induction befores with
  | nil => simp [weaveStepTrace, weaveStep]
  | cons b bs ih =>
    rw [weaveStepTrace, weaveStep]
    cases hsw : sw b cur with
    | none => simp
    | some sub =>
      cases hrest : weaveStep sw cur lastCur bs with
      | none => simpa using ih.mpr hrest
      | some rest => simp [ih, hrest]

theorem weaveLoopTrace_none (sw : List WNode → List WNode → Option (List (List WNode)))
    (afters : List (List WNode)) : ∀ befores,
    none ∈ weaveLoopTrace sw befores afters → weaveLoop sw befores afters = [] := by
  induction afters with
  | nil => intro befores h; simp [weaveLoopTrace] at h
  | cons current rest ih =>
    intro befores h
    rw [weaveLoopTrace] at h
    rw [weaveLoop]
    by_cases hcur : current = []
    · rw [if_pos hcur] at h ⊢
      exact ih befores h
    · rw [if_neg hcur] at h ⊢
      cases hstep : weaveStep sw current.dropLast
          [current.getLastD (WNode.coll [])] befores with
      | none => rfl
      | some temp =>
        rw [hstep] at h
        rcases List.mem_append.mp h with hl | hr
        · have hcontra := (weaveStepTrace_none_iff sw current.dropLast
            [current.getLastD (WNode.coll [])] befores).mp hl
          rw [hstep] at hcontra
          exact absurd hcontra (by simp)
        · exact ih temp hr

/-- Claim C3: whenever one of the subweave calls made while `weave` builds
its prefixes returns the nil rejection, `weave` returns the empty list — the
whole path contributes no resulting complex selector
(`extend.cpp:1484-1486`). -/
theorem weave_nil_on_subweave_rejection
    (sw : List WNode → List WNode → Option (List (List WNode)))
    (path : List (List WNode)) (h : none ∈ weaveTrace sw path) :
    weaveG sw path = [] :=
  weaveLoopTrace_none sw path [[]] h

/-- A subweave stub that always rejects, for the witness. -/
def swAlwaysNil : List WNode → List WNode → Option (List (List WNode)) := fun _ _ => none

/-- Witness for C3: with a rejecting subweave and a one-element path, the
trace holds a nil and weave returns the empty list. -/
theorem weave_nil_on_subweave_rejection_witness :
    none ∈ weaveTrace swAlwaysNil [[WNode.comb Comb.parentOf]] ∧
      weaveG swAlwaysNil [[WNode.comb Comb.parentOf]] = [] :=
  ⟨by decide, weave_nil_on_subweave_rejection swAlwaysNil _ (by decide)⟩

/-! ## LCS (`extend.cpp:369-460`) and claim C5 -/

/-- The LCS memoization table (`lcs_table`, `extend.cpp:404-433`) as the
recurrence its loops fill: `lcsTable cmp x y i j` is `c[i][j]`, about the
first `i` elements of `x` and the first `j` of `y` (the C++ prepends a NULL
sentinel, so its `x[i]` is `x[i-1]` here). -/
def lcsTable {α : Type} (cmp : α → α → Option α) (x y : List α) : Nat → Nat → Nat
  | 0, _ => 0
  | _ + 1, 0 => 0
  | i + 1, j + 1 =>
    match x[i]?, y[j]? with
    | some a, some b =>
      if (cmp a b).isSome then lcsTable cmp x y i j + 1
      else max (lcsTable cmp x y (i + 1) j) (lcsTable cmp x y i (j + 1))
    | _, _ => 0
termination_by i j => i + j

/-- `lcs_backtrace` (`extend.cpp:369-402`): read one LCS out of the table;
on a comparator match the representative `pCompareOut` is appended after the
recursive call. -/
def lcsBacktrace {α : Type} (cmp : α → α → Option α) (x y : List α) : Nat → Nat → List α
  | 0, _ => []
  | _ + 1, 0 => []
  | i + 1, j + 1 =>
    match x[i]?, y[j]? with
    | some a, some b =>
      match cmp a b with
      | some r => lcsBacktrace cmp x y i j ++ [r]
      | none =>
        if lcsTable cmp x y (i + 1) j > lcsTable cmp x y i (j + 1) then
          lcsBacktrace cmp x y (i + 1) j
        else lcsBacktrace cmp x y i (j + 1)
    | _, _ => []
termination_by i j => i + j

/-- `lcs` (`extend.cpp:435-460`): table plus backtrace from the full
lengths. -/
def lcsList {α : Type} (cmp : α → α → Option α) (x y : List α) : List α :=
  lcsBacktrace cmp x y x.length y.length

/-- Modelled from the spec: `DefaultLcsComparator` (`node.hpp`, not part of
the repository's files) — plain node equality, the element itself as the
representative. -/
def eqCmp {α : Type} [DecidableEq α] : α → α → Option α :=
  fun a b => if a = b then some a else none

/-- A take-prefix is a sublist of the next longer take-prefix. -/
theorem take_sublist_take_succ {α : Type} (l : List α) (n : Nat) :
    List.Sublist (l.take n) (l.take (n + 1)) := by
  have h : l.take n = (l.take (n + 1)).take n := by
    rw [List.take_take]
    congr 1
    omega
  rw [h]
  exact List.take_sublist _ _

theorem lcsTable_succ_match {α : Type} [DecidableEq α] (x y : List α) (i j : Nat)
    (a b : α) (hx : x[i]? = some a) (hy : y[j]? = some b) (hab : a = b) :
    lcsTable eqCmp x y (i + 1) (j + 1) = lcsTable eqCmp x y i j + 1 := by
  rw [lcsTable, hx, hy]
  show (if (eqCmp a b).isSome = true then lcsTable eqCmp x y i j + 1
      else max (lcsTable eqCmp x y (i + 1) j) (lcsTable eqCmp x y i (j + 1))) =
    lcsTable eqCmp x y i j + 1
  have hc : (eqCmp a b).isSome = true := by simp [eqCmp, hab]
  rw [hc, if_pos rfl]

theorem lcsTable_succ_nomatch {α : Type} [DecidableEq α] (x y : List α) (i j : Nat)
    (a b : α) (hx : x[i]? = some a) (hy : y[j]? = some b) (hab : ¬ a = b) :
    lcsTable eqCmp x y (i + 1) (j + 1) =
      max (lcsTable eqCmp x y (i + 1) j) (lcsTable eqCmp x y i (j + 1)) := by
  rw [lcsTable, hx, hy]
  show (if (eqCmp a b).isSome = true then lcsTable eqCmp x y i j + 1
      else max (lcsTable eqCmp x y (i + 1) j) (lcsTable eqCmp x y i (j + 1))) =
    max (lcsTable eqCmp x y (i + 1) j) (lcsTable eqCmp x y i (j + 1))
  have hc : (eqCmp a b).isSome = false := by simp [eqCmp, hab]
  rw [hc]
  simp

theorem lcsBacktrace_succ_match {α : Type} [DecidableEq α] (x y : List α) (i j : Nat)
    (a b : α) (hx : x[i]? = some a) (hy : y[j]? = some b) (hab : a = b) :
    lcsBacktrace eqCmp x y (i + 1) (j + 1) = lcsBacktrace eqCmp x y i j ++ [a] := by
  rw [lcsBacktrace, hx, hy]
  show (match eqCmp a b with
    | some r => lcsBacktrace eqCmp x y i j ++ [r]
    | none =>
      if lcsTable eqCmp x y (i + 1) j > lcsTable eqCmp x y i (j + 1) then
        lcsBacktrace eqCmp x y (i + 1) j
      else lcsBacktrace eqCmp x y i (j + 1)) = lcsBacktrace eqCmp x y i j ++ [a]
  have hc : eqCmp a b = some a := by simp [eqCmp, hab]
  rw [hc]

theorem lcsBacktrace_succ_nomatch {α : Type} [DecidableEq α] (x y : List α) (i j : Nat)
    (a b : α) (hx : x[i]? = some a) (hy : y[j]? = some b) (hab : ¬ a = b) :
    lcsBacktrace eqCmp x y (i + 1) (j + 1) =
      if lcsTable eqCmp x y (i + 1) j > lcsTable eqCmp x y i (j + 1) then
        lcsBacktrace eqCmp x y (i + 1) j
      else lcsBacktrace eqCmp x y i (j + 1) := by
  rw [lcsBacktrace, hx, hy]
  show (match eqCmp a b with
    | some r => lcsBacktrace eqCmp x y i j ++ [r]
    | none =>
      if lcsTable eqCmp x y (i + 1) j > lcsTable eqCmp x y i (j + 1) then
        lcsBacktrace eqCmp x y (i + 1) j
      else lcsBacktrace eqCmp x y i (j + 1)) =
    if lcsTable eqCmp x y (i + 1) j > lcsTable eqCmp x y i (j + 1) then
      lcsBacktrace eqCmp x y (i + 1) j
    else lcsBacktrace eqCmp x y i (j + 1)
  have hc : eqCmp a b = none := by simp [eqCmp, hab]
  rw [hc]

theorem lcsBacktrace_sublist {α : Type} [DecidableEq α] (x y : List α) :
    ∀ (n i j : Nat), i + j ≤ n → i ≤ x.length → j ≤ y.length →
      List.Sublist (lcsBacktrace eqCmp x y i j) (x.take i) ∧
        List.Sublist (lcsBacktrace eqCmp x y i j) (y.take j) := by
  intro n
  induction n with
  | zero =>
    intro i j hn _ _
    have hi0 : i = 0 := by omega
    have hj0 : j = 0 := by omega
    subst hi0; subst hj0
    rw [lcsBacktrace]
    exact ⟨List.nil_sublist _, List.nil_sublist _⟩
  | succ n ih =>
    intro i j hn hi hj
    match i, j with
    | 0, j =>
      rw [lcsBacktrace]
      exact ⟨List.nil_sublist _, List.nil_sublist _⟩
    | i + 1, 0 =>
      rw [lcsBacktrace]
      exact ⟨List.nil_sublist _, List.nil_sublist _⟩
    | i + 1, j + 1 =>
      have hi1 : i < x.length := by omega
      have hj1 : j < y.length := by omega
      have ha : x[i]? = some x[i] := List.getElem?_eq_getElem hi1
      have hb : y[j]? = some y[j] := List.getElem?_eq_getElem hj1
      have htx : x.take (i + 1) = x.take i ++ [x[i]] := by
        rw [List.take_succ, ha]
        rfl
      have hty : y.take (j + 1) = y.take j ++ [y[j]] := by
        rw [List.take_succ, hb]
        rfl
      by_cases hab : x[i] = y[j]
      · rw [lcsBacktrace_succ_match x y i j _ _ ha hb hab]
        obtain ⟨s1, s2⟩ := ih i j (by omega) (by omega) (by omega)
        constructor
        · rw [htx]
          exact List.Sublist.append s1 (List.Sublist.refl _)
        · rw [hty, ← hab]
          exact List.Sublist.append s2 (List.Sublist.refl _)
      · rw [lcsBacktrace_succ_nomatch x y i j _ _ ha hb hab]
        by_cases hgt : lcsTable eqCmp x y (i + 1) j > lcsTable eqCmp x y i (j + 1)
        · rw [if_pos hgt]
          obtain ⟨s1, s2⟩ := ih (i + 1) j (by omega) (by omega) (by omega)
          exact ⟨s1, List.Sublist.trans s2 (take_sublist_take_succ y j)⟩
        · rw [if_neg hgt]
          obtain ⟨s1, s2⟩ := ih i (j + 1) (by omega) (by omega) (by omega)
          exact ⟨List.Sublist.trans s1 (take_sublist_take_succ x i), s2⟩

/-- Length of a longest common subsequence, by structural recursion on the
fronts; the DP table is proven equal to it below. -/
def lcsLen {α : Type} [DecidableEq α] : List α → List α → Nat
  | [], _ => 0
  | _ :: _, [] => 0
  | a :: as, b :: bs =>
    if a = b then lcsLen as bs + 1
    else max (lcsLen (a :: as) bs) (lcsLen as (b :: bs))
termination_by u v => u.length + v.length

theorem lcsLen_nil_right {α : Type} [DecidableEq α] (u : List α) : lcsLen u [] = 0 := by
  cases u <;> rw [lcsLen]

theorem lcsTable_eq_lcsLen {α : Type} [DecidableEq α] (x y : List α) :
    ∀ (n i j : Nat), i + j ≤ n → i ≤ x.length → j ≤ y.length →
      lcsTable eqCmp x y i j = lcsLen (x.take i).reverse (y.take j).reverse := by
  intro n
  induction n with
  | zero =>
    intro i j hn _ _
    have hi0 : i = 0 := by omega
    have hj0 : j = 0 := by omega
    subst hi0; subst hj0
    rw [lcsTable]
    simp [lcsLen]
  | succ n ih =>
    intro i j hn hi hj
    match i, j with
    | 0, j =>
      rw [lcsTable]
      simp [lcsLen]
    | i + 1, 0 =>
      rw [lcsTable]
      simp [lcsLen_nil_right]
    | i + 1, j + 1 =>
      have hi1 : i < x.length := by omega
      have hj1 : j < y.length := by omega
      have ha : x[i]? = some x[i] := List.getElem?_eq_getElem hi1
      have hb : y[j]? = some y[j] := List.getElem?_eq_getElem hj1
      have htx : (x.take (i + 1)).reverse = x[i] :: (x.take i).reverse := by
        rw [List.take_succ, ha]
        simp
      have hty : (y.take (j + 1)).reverse = y[j] :: (y.take j).reverse := by
        rw [List.take_succ, hb]
        simp
      rw [htx, hty, lcsLen]
      by_cases hab : x[i] = y[j]
      · rw [lcsTable_succ_match x y i j _ _ ha hb hab, if_pos hab,
          ih i j (by omega) (by omega) (by omega)]
      · rw [lcsTable_succ_nomatch x y i j _ _ ha hb hab, if_neg hab]
        rw [ih (i + 1) j (by omega) (by omega) (by omega),
          ih i (j + 1) (by omega) (by omega) (by omega), htx, hty]

theorem lcsLen_maximal {α : Type} [DecidableEq α] :
    ∀ (n : Nat) (u v z : List α), u.length + v.length ≤ n →
      List.Sublist z u → List.Sublist z v → z.length ≤ lcsLen u v := by
  intro n
  induction n with
  | zero =>
    intro u v z hn hzu _
    have hu : u = [] := by
      cases u
      · rfl
      · simp at hn
    subst hu
    rw [List.sublist_nil.mp hzu]
    simp
  | succ n ih =>
    intro u v z hn hzu hzv
    match u, v with
    | [], v =>
      rw [List.sublist_nil.mp hzu]
      simp
    | u, [] =>
      rw [List.sublist_nil.mp hzv]
      simp
    | a :: as, b :: bs =>
      rw [lcsLen]
      by_cases hab : a = b
      · rw [if_pos hab]
        subst hab
        cases hzu with
        | cons _ hz1 =>
          cases hzv with
          | cons _ hz2 =>
            exact le_trans (ih as bs z (by simp at hn ⊢; omega) hz1 hz2) (Nat.le_succ _)
          | cons₂ _ hz2 =>
            rename_i z2
            have hz2as : List.Sublist z2 as :=
              List.Sublist.trans (List.sublist_cons_self a z2) hz1
            have := ih as bs z2 (by simp at hn ⊢; omega) hz2as hz2
            simpa using Nat.succ_le_succ this
        | cons₂ _ hz1 =>
          rename_i z1
          have hz1bs : List.Sublist z1 bs := by
            cases hzv with
            | cons _ hz2 =>
              exact List.Sublist.trans (List.sublist_cons_self a z1) hz2
            | cons₂ _ hz2 => exact hz2
          have := ih as bs z1 (by simp at hn ⊢; omega) hz1 hz1bs
          simpa using Nat.succ_le_succ this
      · rw [if_neg hab]
        cases hzu with
        | cons _ hz1 =>
          have := ih as (b :: bs) z (by simp at hn ⊢; omega) hz1 hzv
          exact le_trans this (le_max_right _ _)
        | cons₂ _ hz1 =>
          rename_i z1
          have hzbs : List.Sublist (a :: z1) bs := by
            cases hzv with
            | cons _ hz2 => exact hz2
            | cons₂ _ hz2 => exact absurd rfl hab
          have := ih (a :: as) bs (a :: z1) (by simp at hn ⊢; omega)
            (List.cons_sublist_cons.mpr hz1) hzbs
          exact le_trans this (le_max_left _ _)

theorem lcsBacktrace_length {α : Type} [DecidableEq α] (x y : List α) :
    ∀ (n i j : Nat), i + j ≤ n → i ≤ x.length → j ≤ y.length →
      lcsTable eqCmp x y i j ≤ (lcsBacktrace eqCmp x y i j).length := by
  intro n
  induction n with
  | zero =>
    intro i j hn _ _
    have hi0 : i = 0 := by omega
    have hj0 : j = 0 := by omega
    subst hi0; subst hj0
    rw [lcsTable]
    simp
  | succ n ih =>
    intro i j hn hi hj
    match i, j with
    | 0, j => rw [lcsTable]; simp
    | i + 1, 0 => rw [lcsTable]; simp
    | i + 1, j + 1 =>
      have hi1 : i < x.length := by omega
      have hj1 : j < y.length := by omega
      have ha : x[i]? = some x[i] := List.getElem?_eq_getElem hi1
      have hb : y[j]? = some y[j] := List.getElem?_eq_getElem hj1
      by_cases hab : x[i] = y[j]
      · rw [lcsTable_succ_match x y i j _ _ ha hb hab,
          lcsBacktrace_succ_match x y i j _ _ ha hb hab]
        have := ih i j (by omega) (by omega) (by omega)
        simp only [List.length_append, List.length_cons, List.length_nil]
        omega
      · rw [lcsTable_succ_nomatch x y i j _ _ ha hb hab,
          lcsBacktrace_succ_nomatch x y i j _ _ ha hb hab]
        by_cases hgt : lcsTable eqCmp x y (i + 1) j > lcsTable eqCmp x y i (j + 1)
        · rw [if_pos hgt]
          have := ih (i + 1) j (by omega) (by omega) (by omega)
          omega
        · rw [if_neg hgt]
          have := ih i (j + 1) (by omega) (by omega) (by omega)
          omega

theorem lcsList_eq_left_iff {α : Type} [DecidableEq α] (x y : List α) :
    lcsList eqCmp x y = x ↔ List.Sublist x y := by
  constructor
  · intro h
    have hs := (lcsBacktrace_sublist x y (x.length + y.length) x.length y.length
      le_rfl le_rfl le_rfl).2
    rw [List.take_length] at hs
    rw [lcsList] at h
    rwa [h] at hs
  · intro hxy
    have hsub := (lcsBacktrace_sublist x y (x.length + y.length) x.length y.length
      le_rfl le_rfl le_rfl).1
    rw [List.take_length] at hsub
    have htab : x.length ≤ lcsTable eqCmp x y x.length y.length := by
      have heq := lcsTable_eq_lcsLen x y (x.length + y.length) x.length y.length
        le_rfl le_rfl le_rfl
      rw [List.take_length, List.take_length] at heq
      rw [heq]
      have hm := lcsLen_maximal (x.reverse.length + y.reverse.length) x.reverse y.reverse
        x.reverse le_rfl (List.Sublist.refl _) (List.reverse_sublist.mpr hxy)
      simpa using hm
    have hlen := lcsBacktrace_length x y (x.length + y.length) x.length y.length
      le_rfl le_rfl le_rfl
    rw [lcsList]
    exact hsub.eq_of_length_le (le_trans htab hlen)

theorem lcsList_eq_right_iff {α : Type} [DecidableEq α] (x y : List α) :
    lcsList eqCmp x y = y ↔ List.Sublist y x := by
  constructor
  · intro h
    have hs := (lcsBacktrace_sublist x y (x.length + y.length) x.length y.length
      le_rfl le_rfl le_rfl).1
    rw [List.take_length] at hs
    rw [lcsList] at h
    rwa [h] at hs
  · intro hyx
    have hsub := (lcsBacktrace_sublist x y (x.length + y.length) x.length y.length
      le_rfl le_rfl le_rfl).2
    rw [List.take_length] at hsub
    have htab : y.length ≤ lcsTable eqCmp x y x.length y.length := by
      have heq := lcsTable_eq_lcsLen x y (x.length + y.length) x.length y.length
        le_rfl le_rfl le_rfl
      rw [List.take_length, List.take_length] at heq
      rw [heq]
      have hm := lcsLen_maximal (x.reverse.length + y.reverse.length) x.reverse y.reverse
        y.reverse le_rfl (List.reverse_sublist.mpr hyx) (List.Sublist.refl _)
      simpa using hm
    have hlen := lcsBacktrace_length x y (x.length + y.length) x.length y.length
      le_rfl le_rfl le_rfl
    rw [lcsList]
    exact hsub.eq_of_length_le (le_trans htab hlen)

/-- `mergeInitialOps` (`extend.cpp:836-860`): strip the leading combinator
nodes of both sequences (`getAndRemoveInitialOps`, `extend.cpp:797-805`:
the takeWhile prefix on combinator nodes), reject with nil unless the LCS of
the two prefixes under the default node-equality comparator equals one of
them, and otherwise return the longer prefix. -/
def mergeInitialOps (seq1 seq2 : List WNode) : Option (List WNode) :=
  if lcsList eqCmp (seq1.takeWhile WNode.isComb) (seq2.takeWhile WNode.isComb) =
        seq1.takeWhile WNode.isComb ∨
      lcsList eqCmp (seq1.takeWhile WNode.isComb) (seq2.takeWhile WNode.isComb) =
        seq2.takeWhile WNode.isComb then
    some (if (seq1.takeWhile WNode.isComb).length > (seq2.takeWhile WNode.isComb).length
      then seq1.takeWhile WNode.isComb else seq2.takeWhile WNode.isComb)
  else none

/-- Claim C5: for the leading-combinator sequences `ops1`, `ops2` stripped
from the two inputs of subweave, the merge of initial operators rejects the
whole subweave (nil) unless one of `ops1`, `ops2` is a subsequence of the
other — which is exactly when their longest common subsequence equals one of
them — and otherwise the merged prefix is the longer of the two sequences. -/
theorem mergeInitialOps_subsequence_rule (seq1 seq2 : List WNode) :
    mergeInitialOps seq1 seq2 =
      if List.Sublist (seq1.takeWhile WNode.isComb) (seq2.takeWhile WNode.isComb) ∨
          List.Sublist (seq2.takeWhile WNode.isComb) (seq1.takeWhile WNode.isComb) then
        some (if (seq1.takeWhile WNode.isComb).length > (seq2.takeWhile WNode.isComb).length
          then seq1.takeWhile WNode.isComb else seq2.takeWhile WNode.isComb)
      else none := by
  rw [mergeInitialOps]
  have hcond : (lcsList eqCmp (seq1.takeWhile WNode.isComb) (seq2.takeWhile WNode.isComb) =
        seq1.takeWhile WNode.isComb ∨
      lcsList eqCmp (seq1.takeWhile WNode.isComb) (seq2.takeWhile WNode.isComb) =
        seq2.takeWhile WNode.isComb) ↔
      (List.Sublist (seq1.takeWhile WNode.isComb) (seq2.takeWhile WNode.isComb) ∨
        List.Sublist (seq2.takeWhile WNode.isComb) (seq1.takeWhile WNode.isComb)) := by
    constructor
    · rintro (h | h)
      · exact Or.inl ((lcsList_eq_left_iff _ _).mp h)
      · exact Or.inr ((lcsList_eq_right_iff _ _).mp h)
    · rintro (h | h)
      · exact Or.inl ((lcsList_eq_left_iff _ _).mpr h)
      · exact Or.inr ((lcsList_eq_right_iff _ _).mpr h)
  exact if_congr hcond rfl rfl

/-! ## Compound unification (spec §4.1) and small selector helpers -/

/-- Is a simple selector a type selector? -/
def isTypeSel : Simple → Bool
  | .typ _ => true
  | _ => false

/-- Is a simple selector a pseudo-element? -/
def isPseudoEltSel : Simple → Bool
  | .pseudoElt _ => true
  | _ => false

/-- Modelled from the spec: compound unification
(`Compound_Selector::unify_with` lives in `ast.cpp`, not part of the
repository's files; spec §4.1): merge the simple selectors as sets keeping
order — the first compound's elements, then the second's not already there;
reject when two distinct non-universal type selectors meet, or two distinct
pseudo-elements; `*` unifies with anything yielding the other; sources
merge (spec §3: sources propagate through unification). -/
def cpdUnify (a b : Cpd) : Option Cpd :=
  let merged := a.sels ++ b.sels.filter (fun s => ! a.sels.contains s)
  let types := (merged.filter isTypeSel).filter (fun s => ! s == Simple.typ "*")
  let pelts := merged.filter isPseudoEltSel
  if 2 ≤ types.eraseDups.length ∨ 2 ≤ pelts.eraseDups.length then none
  else if types.isEmpty then some ⟨merged, dedupMerge a.sources b.sources⟩
  else some ⟨merged.filter (fun s => ! s == Simple.typ "*"), dedupMerge a.sources b.sources⟩

/-- Head compound of a complex selector (`Complex_Selector::head()` of the
first link; a missing head is the empty compound). -/
def cplxHead : Cplx → Cpd
  | [] => ⟨[], []⟩
  | l :: _ => l.head

/-- Replace the head compound of a complex selector's first link, as the
clone-then-`head(pMerged)` steps of `mergeFinalOps` do
(`extend.cpp:990-993`). -/
def replaceHead (c : Cplx) (u : Cpd) : Cplx :=
  match c with
  | [] => []
  | l :: ls => ⟨l.comb, u⟩ :: ls

/-- The wrapped complex selector of a selector node. -/
def selOf : WNode → Option Cplx
  | WNode.sel s => some s
  | _ => none

/-! ## mergeFinalOps (`extend.cpp:927-1151`) and claim C2 -/

/-- Result of `mergeFinalOps`: the nil rejection (`Node::createNil`), or the
updated result together with the remaining popped sequences.  `crash` models
the unguarded `back()` / `selector()` dereferences on an empty deque or a
non-selector node; `fuelOut` marks exhaustion of the structural fuel and is
unreachable for the fuel the wrapper supplies. -/
inductive MFO where
  | nil
  | ok (res seq1 seq2 : List WNode)
  | crash
  | fuelOut
deriving DecidableEq

/-- The trailing combinator run collected by `getAndRemoveFinalOps`
(`extend.cpp:808-816`), back-to-front ("purposefully reversed"). -/
def finalOps (seq : List WNode) : List WNode := seq.reverse.takeWhile WNode.isComb

/-- The sequence with its trailing combinator run removed. -/
def stripFinal (seq : List WNode) : List WNode :=
  (seq.reverse.dropWhile WNode.isComb).reverse

/-- `mergeFinalOps` (`extend.cpp:927-1151`), recursion made structural on a
fuel argument (the wrapper supplies `|seq1| + |seq2| + 1`, proven
sufficient): strip the trailing combinator runs; when both sequences end in
one combinator, dispatch on the pair of combinators (the `~ ~`, `~ +`,
`> ~`, equal and unknown cases); with combinators on one side only, drain
that side, dropping the other side's superselector tail under a trailing
`>`. -/
def mergeFinalOpsF : Nat → List WNode → List WNode → List WNode → MFO
  | 0, _, _, _ => MFO.fuelOut
  | fuel + 1, seq1, seq2, res =>
    let ops1 := finalOps seq1
    let ops2 := finalOps seq2
    let rem1 := stripFinal seq1
    let rem2 := stripFinal seq2
    if ops1.isEmpty && ops2.isEmpty then MFO.ok res rem1 rem2
    else if 1 < ops1.length ∨ 1 < ops2.length then
      if lcsList eqCmp ops1 ops2 = ops1 ∨ lcsList eqCmp ops1 ops2 = ops2 then
        MFO.ok ((if ops2.length < ops1.length then ops1.reverse else ops2.reverse) ++ res)
          rem1 rem2
      else MFO.nil
    else if ops1.isEmpty = false && ops2.isEmpty = false then
      match ops1, ops2, rem1.getLast?, rem2.getLast? with
      | [WNode.comb c1], [WNode.comb c2], some l1, some l2 =>
        (match selOf l1, selOf l2 with
         | some s1, some s2 =>
           let sq1 := rem1.dropLast
           let sq2 := rem2.dropLast
           if c1 = Comb.precedes ∧ c2 = Comb.precedes then
             if isSuperC s1 s2 then
               mergeFinalOpsF fuel sq1 sq2 (WNode.sel s2 :: WNode.comb c1 :: res)
             else if isSuperC s2 s1 then
               mergeFinalOpsF fuel sq1 sq2 (WNode.sel s1 :: WNode.comb c1 :: res)
             else
               let perms := [[WNode.sel s1, WNode.comb Comb.precedes, WNode.sel s2,
                   WNode.comb Comb.precedes],
                 [WNode.sel s2, WNode.comb Comb.precedes, WNode.sel s1,
                   WNode.comb Comb.precedes]] ++
                 (match cpdUnify (cplxHead s1) (cplxHead s2) with
                  | some u => [[WNode.sel (replaceHead s1 u), WNode.comb Comb.precedes]]
                  | none => [])
               mergeFinalOpsF fuel sq1 sq2 (WNode.coll (perms.map WNode.coll) :: res)
           else if (c1 = Comb.precedes ∧ c2 = Comb.adjacentTo) ∨
               (c1 = Comb.adjacentTo ∧ c2 = Comb.precedes) then
             let tildeSel := if c1 = Comb.precedes then s1 else s2
             let plusSel := if c1 = Comb.precedes then s2 else s1
             if isSuperC tildeSel plusSel then
               mergeFinalOpsF fuel sq1 sq2
                 (WNode.sel plusSel :: WNode.comb Comb.adjacentTo :: res)
             else
               let perms := [[WNode.sel tildeSel, WNode.comb Comb.precedes,
                   WNode.sel plusSel, WNode.comb Comb.adjacentTo]] ++
                 (match cpdUnify (cplxHead plusSel) (cplxHead tildeSel) with
                  | some u => [[WNode.sel (replaceHead plusSel u),
                      WNode.comb Comb.adjacentTo]]
                  | none => [])
               mergeFinalOpsF fuel sq1 sq2 (WNode.coll (perms.map WNode.coll) :: res)
           else if c1 = Comb.parentOf ∧ (c2 = Comb.precedes ∨ c2 = Comb.adjacentTo) then
             mergeFinalOpsF fuel (sq1 ++ [WNode.sel s1, WNode.comb c1]) sq2
               (WNode.sel s2 :: WNode.comb c2 :: res)
           else if c2 = Comb.parentOf ∧ (c1 = Comb.precedes ∨ c1 = Comb.adjacentTo) then
             mergeFinalOpsF fuel sq1 (sq2 ++ [WNode.sel s2, WNode.comb c2])
               (WNode.sel s1 :: WNode.comb c1 :: res)
           else if c1 = c2 then
             match cpdUnify (cplxHead s1) (cplxHead s2) with
             | some u =>
               mergeFinalOpsF fuel sq1 sq2
                 (WNode.sel (replaceHead s1 u) :: WNode.comb c1 :: res)
             | none => MFO.nil
           else MFO.nil
         | _, _ => MFO.crash)
      | _, _, _, _ => MFO.crash
    else if ops1.isEmpty = false then
      match ops1, rem1.getLast? with
      | [WNode.comb c1], some l1 =>
        (if c1 = Comb.parentOf then
          match rem2.getLast? with
          | none => mergeFinalOpsF fuel rem1.dropLast rem2 (l1 :: WNode.comb c1 :: res)
          | some l2 =>
            match selOf l2, selOf l1 with
            | some s2, some s1 =>
              if isSuperC s2 s1 then
                mergeFinalOpsF fuel rem1.dropLast rem2.dropLast
                  (l1 :: WNode.comb c1 :: res)
              else mergeFinalOpsF fuel rem1.dropLast rem2 (l1 :: WNode.comb c1 :: res)
            | _, _ => MFO.crash
        else mergeFinalOpsF fuel rem1.dropLast rem2 (l1 :: WNode.comb c1 :: res))
      | _, _ => MFO.crash
    else
      match ops2, rem2.getLast? with
      | [WNode.comb c2], some l2 =>
        (if c2 = Comb.parentOf then
          match rem1.getLast? with
          | none => mergeFinalOpsF fuel rem1 rem2.dropLast (l2 :: WNode.comb c2 :: res)
          | some l1 =>
            match selOf l1, selOf l2 with
            | some s1, some s2 =>
              if isSuperC s1 s2 then
                mergeFinalOpsF fuel rem1.dropLast rem2.dropLast
                  (l2 :: WNode.comb c2 :: res)
              else mergeFinalOpsF fuel rem1 rem2.dropLast (l2 :: WNode.comb c2 :: res)
            | _, _ => MFO.crash
        else mergeFinalOpsF fuel rem1 rem2.dropLast (l2 :: WNode.comb c2 :: res))
      | _, _ => MFO.crash

/-- `mergeFinalOps` with the sufficient fuel. -/
def mergeFinalOps (seq1 seq2 res : List WNode) : MFO :=
  mergeFinalOpsF (seq1.length + seq2.length + 1) seq1 seq2 res

/-- Claim C2 (amended): when both sequences end with the general-sibling
combinator `~`, then if one side's trailing compound is a superselector of
the other's, the pair emitted into the result is the more-SPECIFIC pair (the
subselector side, `extend.cpp:975-984`); otherwise three alternative
permutations are emitted — the first compound then `~` then the second then
`~`, the reverse order, and, exactly when the unification of the two
compounds exists, the unified compound followed by `~`
(`extend.cpp:985-1024`). -/
theorem mergeFinalOps_tilde_tilde (a b : Cplx) (res : List WNode) :
    mergeFinalOps [WNode.sel a, WNode.comb Comb.precedes]
        [WNode.sel b, WNode.comb Comb.precedes] res =
      (if isSuperC a b = true then
        MFO.ok (WNode.sel b :: WNode.comb Comb.precedes :: res) [] []
      else if isSuperC b a = true then
        MFO.ok (WNode.sel a :: WNode.comb Comb.precedes :: res) [] []
      else
        MFO.ok (WNode.coll (([[WNode.sel a, WNode.comb Comb.precedes, WNode.sel b,
              WNode.comb Comb.precedes],
            [WNode.sel b, WNode.comb Comb.precedes, WNode.sel a,
              WNode.comb Comb.precedes]] ++
            (match cpdUnify (cplxHead a) (cplxHead b) with
             | some u => [[WNode.sel (replaceHead a u), WNode.comb Comb.precedes]]
             | none => [])).map WNode.coll) :: res) [] []) := by
  by_cases h1 : isSuperC a b = true
  · simp [mergeFinalOps, mergeFinalOpsF, finalOps, stripFinal, selOf, WNode.isComb, h1]
  · by_cases h2 : isSuperC b a = true
    · simp [mergeFinalOps, mergeFinalOpsF, finalOps, stripFinal, selOf, WNode.isComb,
        h1, h2]
    · cases hu : cpdUnify (cplxHead a) (cplxHead b) with
      | some u =>
        simp [mergeFinalOps, mergeFinalOpsF, finalOps, stripFinal, selOf, WNode.isComb,
          h1, h2, hu]
      | none =>
        simp [mergeFinalOps, mergeFinalOpsF, finalOps, stripFinal, selOf, WNode.isComb,
          h1, h2, hu]

/-- Counterexample to claim C2 as stated: with `.a` (the more general
selector) ending the first sequence and `.a.b` (the more specific) ending
the second, both under `~`, `mergeFinalOps` emits the more-specific pair
`(.a.b, ~)` — `extend.cpp:975-978` unshifts `sel2` when `sel1` is the
superselector — not the more-general pair the claim names. -/
theorem mergeFinalOps_claimC2_counterexample :
    mergeFinalOps [WNode.sel cexSmall, WNode.comb Comb.precedes]
        [WNode.sel cexBig, WNode.comb Comb.precedes] [] =
      MFO.ok [WNode.sel cexBig, WNode.comb Comb.precedes] [] [] ∧
      isSuperC cexSmall cexBig = true ∧ ¬ cexBig = cexSmall := by
  refine ⟨by decide, by decide, by decide⟩

/-! ## subweave (`extend.cpp:1190-1349`) -/

/-- One do-while pass of `groupSelectors` (`extend.cpp:785-791`): push the
front, continuing while the tail is nonempty and either side of the boundary
is a combinator. -/
def groupOne : List WNode → List WNode × List WNode
  | [] => ([], [])
  | x :: xs =>
    match xs with
    | [] => ([x], [])
    | y :: ys =>
      if x.isComb || y.isComb then
        let p := groupOne (y :: ys)
        (x :: p.1, p.2)
      else ([x], y :: ys)

/-- `groupSelectors` (`extend.cpp:776-794`): split a sequence into
`[compound, combinator?]` chunks, each wrapped as a collection.  The fuel is
the length plus one, which the strictly consuming `groupOne` never
exhausts. -/
def groupSelectorsF : Nat → List WNode → List WNode
  | 0, _ => []
  | _ + 1, [] => []
  | fuel + 1, x :: xs =>
    let p := groupOne (x :: xs)
    WNode.coll p.1 :: groupSelectorsF fuel p.2

/-- `groupSelectors` with its fuel supplied. -/
def groupSelectors (seq : List WNode) : List WNode := groupSelectorsF (seq.length + 1) seq

/-- Order-dependent structural selector equality ignoring sources
(`selectors_equal(one, two, true)`; `selectors_equal` lives in `ast.cpp`,
not part of the repository's files — modelled as equality of the combinator
and simple-selector chains). -/
def cplxEqOD (a b : Cplx) : Bool := decide (stripCplx a = stripCplx b)

/-- Set-equality of two simple-selector lists (compounds compare as
unordered sets, spec §3). -/
def cpdSelsSetEq (x y : List Simple) : Bool :=
  x.all (fun s => y.contains s) && y.all (fun s => x.contains s)

/-- Order-independent structural selector equality ignoring sources
(`selectors_equal(one, two, false)`): combinators equal, compounds equal as
sets. -/
def cplxEqUnordered (a b : Cplx) : Bool :=
  decide (a.length = b.length) &&
    (a.zip b).all (fun p =>
      decide (p.1.comb = p.2.comb) && cpdSelsSetEq p.1.head.sels p.2.head.sels)

/-- Leading combinator of a complex selector. -/
def cplxLeadComb : Cplx → Comb
  | [] => Comb.ancestorOf
  | l :: _ => l.comb

/-- `parentSuperselector` on complex selectors (`extend.cpp:290-308`):
append the synthetic `temp` type selector as a trailing descendant to both
and compare. -/
def parentSuperselectorC (one two : Cplx) : Bool :=
  isSuperC (one ++ [tempLink]) (two ++ [tempLink])

/-- `LcsCollectionComparator` (`extend.cpp:328-366`): structurally equal
groups match with the first as representative; otherwise both must start
without a leading combinator and a parent-superselector relation picks the
more specific group as the representative. -/
def lcsGroupCmp (one two : Cplx) : Option Cplx :=
  if cplxEqOD one two then some one
  else if cplxLeadComb one ≠ Comb.ancestorOf ∨ cplxLeadComb two ≠ Comb.ancestorOf then none
  else if parentSuperselectorC one two then some two
  else if parentSuperselectorC two one then some one
  else none

/-- Modelled from the spec: `Sass::paths` (`paths.hpp`, not part of the
repository's files; spec §4.6 step 7): the Cartesian product of the choice
lists, ruby's
`arrs.inject([[]]) {|paths, arr| arr.map {|e| paths.map {|path| path + [e]}}.flatten(1)}`. -/
def pathsProd {β : Type} (arrs : List (List β)) : List (List β) :=
  arrs.foldl (fun acc arr => arr.flatMap (fun e => acc.map (fun p => p ++ [e]))) [[]]

mutual

/-- Modelled from the spec: full `flatten` of a node (`node.cpp`, not part of
the repository's files; ruby `p.flatten` in subweave): splice nested
collections, keep atoms. -/
def flattenNode : WNode → List WNode
  | WNode.coll ns => flattenList ns
  | n => [n]

/-- Full flatten of a node list. -/
def flattenList : List WNode → List WNode
  | [] => []
  | x :: xs => flattenNode x ++ flattenList xs

end

/-- The while-loop over the group LCS in `subweave` (`extend.cpp:1278-1290`):
each round runs `chunks` under the parent-superselector chunker against the
LCS front, emits the chunk orderings and the LCS front as diff blocks, and
pops the front of both group sequences. -/
def subweaveDiffLoop : List WNode → List WNode → List WNode →
    Option (List (List WNode) × List WNode × List WNode)
  | gs1, gs2, [] => some ([], gs1, gs2)
  | gs1, gs2, lf :: lrest =>
    match chunks (psChunker lf) gs1 gs2 with
    | none => none
    | some (chunkRes, gs1x, gs2x) =>
      match subweaveDiffLoop gs1x.tail gs2x.tail lrest with
      | none => none
      | some (blocks, g1, g2) => some (chunkRes :: [lf] :: blocks, g1, g2)

/-- `Extend::subweave` (`extend.cpp:1190-1349`): the trivial empty cases,
merge of initial and final operators, grouping, group LCS, the diff
construction, and the Cartesian product flattened per path.  `none` is the
nil rejection (a final-merge crash or fuel exhaustion is also mapped to
`none`; neither is reachable on the flat selector sequences weave feeds
in). -/
def subweave (one two : List WNode) : Option (List (List WNode)) :=
  if one.isEmpty then some [two]
  else if two.isEmpty then some [one]
  else
    match mergeInitialOps one two with
    | none => none
    | some init =>
      match mergeFinalOps (one.dropWhile WNode.isComb) (two.dropWhile WNode.isComb) [] with
      | MFO.nil => none
      | MFO.crash => none
      | MFO.fuelOut => none
      | MFO.ok fin rem1 rem2 =>
        let finM := fin.map (fun n =>
          match n with
          | WNode.coll ns => WNode.coll ns
          | x => WNode.coll [x])
        let g1 := groupSelectors rem1
        let g2 := groupSelectors rem2
        let conv1 := g1.map (fun n => nodesToCplx n.asColl)
        let conv2 := g2.map (fun n => nodesToCplx n.asColl)
        let seqLcs := (lcsList lcsGroupCmp conv2 conv1).map
          (fun c => WNode.coll (cplxToNodes c))
        match subweaveDiffLoop g1 g2 seqLcs with
        | none => none
        | some (blocks, gs1, gs2) =>
          match chunks emptyChunker gs1 gs2 with
          | none => none
          | some (lastChunk, _, _) =>
            let diff := [[WNode.coll init]] ++ blocks ++ [lastChunk] ++
              finM.map (fun n => n.asColl)
            let diffF := diff.filter (fun b => ! b.isEmpty)
            some ((pathsProd diffF).map flattenList)

/-- `weave` at the real subweave (`extend.cpp:1480`). -/
def weave (path : List (List WNode)) : List (List WNode) := weaveG subweave path

/-! ## The extension driver (`extend.cpp:1539-2020`) and claims C4, C6 -/

/-- Modelled from the spec: one stored entry of the `ExtensionSubsetMap`
(`subset_map.hpp` is not part of the repository's files; spec §3, §4.4):
the canonical key, the extender complex selector and the extendee
compound. -/
structure SMapEntry where
  key : List Simple
  extender : Cplx
  extendee : Cpd
deriving DecidableEq

/-- The extension subset map, in insertion order. -/
abbrev SubsetMap := List SMapEntry

/-- Modelled from the spec: the `get_v` lookup (spec §4.4) — every entry
whose key is a subset of the queried compound's simple selectors, in
insertion order. -/
def get_v (m : SubsetMap) (q : List Simple) : List (Cplx × Cpd) :=
  (m.filter (fun e => e.key.all (fun s => q.contains s))).map
    (fun e => (e.extender, e.extendee))

/-- Modelled from the spec: `group_by_to_a` (`sass_util.hpp`, not part of
the repository's files; spec §4.4 "groups by extender identity", §5
"preserve insertion order"): groups in first-occurrence order of the
extender, elements in input order. -/
def groupByExtender (l : List (Cplx × Cpd)) : List (Cplx × List (Cplx × Cpd)) :=
  ((l.map Prod.fst).eraseDups).map (fun k => (k, l.filter (fun e => decide (e.1 = k))))

/-- Add sources to every head of a complex selector
(`Complex_Selector::addSources`, ruby `Sequence#add_sources!`: every
compound member receives the sources; `ast.cpp` is not part of the
repository's files). -/
def addSourcesC (srcs : List BareCplx) (c : Cplx) : Cplx :=
  c.map (fun l => ⟨l.comb, ⟨l.head.sels, dedupMerge l.head.sources srcs⟩⟩)

/-- Does a complex selector contain a placeholder selector
(`Complex_Selector::has_placeholder`)? -/
def hasPlaceholderC (c : Cplx) : Bool :=
  c.any (fun l => l.head.sels.any (fun s =>
    match s with
    | Simple.placeholder _ => true
    | _ => false))

/-- The composite `pSels` of one extender group: all the group's extendee
simple selectors gathered into one compound (`extend.cpp:1575-1584`). -/
def pSelsOf (g : Cplx × List (Cplx × Cpd)) : List Simple :=
  g.2.flatMap (fun e => e.2.sels)

/-- One extender group's contribution to the holder
(`extend.cpp:1566-1666`): the composite `pSels`, paired with the new
selector — the cloned extender whose innermost compound is replaced by the
unification of it with the queried compound minus `pSels` (combinator
preserved, `extend.cpp:1624-1629`), carrying the compound's sources plus
the extender (`extend.cpp:1650-1657`; the fresh clone starts sourceless,
debug assert `extend.cpp:1631-1641`).  A group whose unification fails or
comes out empty is skipped (`extend.cpp:1613-1615`). -/
def extendGroup (p : Cpd) (g : Cplx × List (Cplx × Cpd)) :
    Option (List Simple × Cplx) :=
  match cpdUnify
      (match g.1.getLast? with
       | some l => l.head
       | none => ⟨[], []⟩)
      ⟨p.sels.filter (fun s => ! (pSelsOf g).contains s), []⟩ with
  | none => none
  | some u =>
    if u.sels.isEmpty then none
    else
      some (pSelsOf g,
        addSourcesC (dedupMerge p.sources [stripCplx g.1])
          (g.1.dropLast ++ [⟨(match g.1.getLast? with
            | some l => l.comb
            | none => Comb.ancestorOf), u⟩]))

/-- The first loop of `extendCompoundSelector` (`extend.cpp:1566-1666`):
look the compound up, group the entries by extender, and build each group's
contribution. -/
def extendHolder (m : SubsetMap) (p : Cpd) : List (List Simple × Cplx) :=
  (groupByExtender (get_v m p.sels)).filterMap (extendGroup p)

/-- Order-independent equality of two node sequences, as
`Node::contains(…, false)` compares the dedup candidates of
`extendCompoundSelector` (`extend.cpp:1698`). -/
def seqEqUnordered (x y : List WNode) : Bool :=
  cplxEqUnordered (nodesToCplx x) (nodesToCplx y)

/-- Order-dependent equality of two node sequences
(`Node::contains(…, true)`, `extend.cpp:1943`). -/
def seqEqOrdered (x y : List WNode) : Bool := cplxEqOD (nodesToCplx x) (nodesToCplx y)

/-- Deduplicating append of recursion results
(`extend.cpp:1691-1702`): push each new selector unless an
order-independent equal one is already present. -/
def dedupAppend (acc res : List (List WNode)) : List (List WNode) :=
  res.foldl (fun a n => if a.any (fun x => seqEqUnordered x n) then a else a ++ [n]) acc

/-- The per-path trim instance used by `extendComplexSelector`
(`extend.cpp:1890`): specificity, source specificities and superselector of
a woven node sequence through its complex-selector reading. -/
def seqSpec (s : List WNode) : Nat := cplxSpec (nodesToCplx s)

/-- Source specificities of a node sequence. -/
def seqSrcSpecs (s : List WNode) : List Nat := cplxSrcSpecs (nodesToCplx s)

/-- Superselector test between node sequences. -/
def seqSuper (a b : List WNode) : Bool := isSuperC (nodesToCplx a) (nodesToCplx b)

/-- A pending call of the mutually recursive extension driver. -/
inductive ExtCall where
  | cplx (c : Cplx) (isOriginal : Bool)
  | cpd (p : Cpd)

/-- One step of the holder fold in `extendCompoundSelector`
(`extend.cpp:1670-1702`), abstracted over the recursive call `rec`: skip the
group when its `pSels` is already seen (`extend.cpp:1677-1679`), otherwise
recurse on the group's selector with `pSels` added to seen
(`extend.cpp:1682-1687`) and append the results with order-independent
deduplication (`extend.cpp:1691-1702`). -/
def extendStep (rec : ExtCall → List (List Simple) → Option (List (List WNode)))
    (seen : List (List Simple)) (acc : Option (List (List WNode)))
    (x : List Simple × Cplx) : Option (List (List WNode)) :=
  match acc with
  | none => none
  | some a =>
    if x.1 ∈ seen then some a
    else
      match rec (ExtCall.cplx x.2 false) (x.1 :: seen) with
      | none => none
      | some res => some (dedupAppend a res)

/-- One position of the node walk in `extendComplexSelector`
(`extend.cpp:1804-1862`), abstracted over the recursive call `rec`:
combinators pass through as singleton choices, a compound position extends
its head and prepends the position's own compound (with the original
selector recorded as source on the outermost originals,
`extend.cpp:1841-1849`) unless some extension is already a superselector of
it (`extend.cpp:1851-1855`). -/
def extendPosition (rec : ExtCall → List (List Simple) → Option (List (List WNode)))
    (seen : List (List Simple)) (c : Cplx) (isOrig : Bool) (nd : WNode) :
    Option (List (List WNode)) :=
  match nd with
  | WNode.comb cb => some [[WNode.comb cb]]
  | WNode.sel s =>
    (match rec (ExtCall.cpd (cplxHead s)) seen with
     | none => none
     | some extended =>
       let own : Cplx :=
         if isOrig && ! hasPlaceholderC c then addSourcesC [stripCplx c] s else s
       let isSup := extended.any (fun ch => isSuperC (nodesToCplx ch) own)
       some (if isSup then extended else cplxToNodes own :: extended))
  | WNode.coll _ => some []

/-- `extendComplexSelector` / `extendCompoundSelector`
(`extend.cpp:1539-1905`), their mutual recursion realized by structural
recursion on a fuel argument; `none` is fuel exhaustion, unreachable for the
bound the wrappers supply because the seen set grows inside the finite
universe of possible `pSels` values (claim C4).  The compound case folds
`extendStep` over the holder; the complex case walks the node sequence with
`extendPosition`, then takes paths, weaves each, trims the weaves and
flattens one level (`extend.cpp:1869-1896`). -/
def extendF (m : SubsetMap) (isReplace : Bool) :
    Nat → ExtCall → List (List Simple) → Option (List (List WNode))
  | 0, _, _ => none
  | fuel + 1, ExtCall.cpd p, seen =>
    (extendHolder m p).foldl (extendStep (extendF m isReplace fuel) seen) (some [])
  | fuel + 1, ExtCall.cplx c isOrig, seen =>
    match (cplxToNodes c).mapM
        (extendPosition (extendF m isReplace fuel) seen c isOrig) with
    | none => none
    | some choices =>
      some ((trim seqSpec seqSrcSpecs seqSuper isReplace
        ((pathsProd choices).map weave)).flatten)

/-- The finite universe of possible `pSels` values for a map: every sublist
of the stored entries contributes the concatenation of its extendees' simple
selectors; every holder's `pSels` lies in it. -/
def pSelsUniverse (m : SubsetMap) : Finset (List Simple) :=
  (m.sublists.map (fun l => l.flatMap (fun e => e.extendee.sels))).toFinset

/-- The sufficient fuel for the extension driver at a given seen set. -/
def extendFuelBound (m : SubsetMap) (seen : List (List Simple)) : Nat :=
  2 * ((pSelsUniverse m) \ seen.toFinset).card + 2

/-- `extendComplexSelector` with its fuel bound supplied. -/
def extendComplexSelector (m : SubsetMap) (isReplace : Bool) (c : Cplx)
    (seen : List (List Simple)) (isOrig : Bool) : Option (List (List WNode)) :=
  extendF m isReplace (extendFuelBound m seen) (ExtCall.cplx c isOrig) seen

/-- `extendCompoundSelector` with its fuel bound supplied. -/
def extendCompoundSelector (m : SubsetMap) (isReplace : Bool) (p : Cpd)
    (seen : List (List Simple)) : Option (List (List WNode)) :=
  extendF m isReplace (extendFuelBound m seen + 1) (ExtCall.cpd p) seen

/-- `complexSelectorHasExtension` (`extend.cpp:1711-1774`) in the model
without wrapped selectors and media blocks: some head has a subset-map
entry; a model entry carries no media block, so the cross-media error loop
(`extend.cpp:1743-1766`) never fires. -/
def complexSelectorHasExtension (m : SubsetMap) (c : Cplx) : Bool :=
  c.any (fun l => ! (get_v m l.head.sels).isEmpty)

/-- Modelled from the spec: the external placeholder-removal pass applied at
`extend.cpp:1958-1961` (`remove_placeholders.cpp` is not part of the
repository's files; spec §4.8 and glossary: placeholder selectors are
removed before output). -/
def removePlaceholders (l : List Cplx) : List Cplx :=
  l.filter (fun c => ! hasPlaceholderC c)

/-- The head-rebuilding pass ending `extendSelectorList`
(`extend.cpp:1964-2017`): every head whose compound is not in `seen` is
replaced by a freshly allocated compound holding the same simple selectors;
without wrapped selectors this keeps the simple selectors and leaves the
fresh compound's sources empty. -/
def rebuildHeads (seen : List (List Simple)) (c : Cplx) : Cplx :=
  c.map (fun l => if l.head.sels ∈ seen then l else ⟨l.comb, ⟨l.head.sels, []⟩⟩)

/-- The per-selector loop of `Extend::extendSelectorList`
(`extend.cpp:1926-1956`): pass selectors without extensions through; extend
the others, keeping only the original when the extension result no longer
contains it (`extend.cpp:1941-1947`), and dropping the first result under
`isReplace` when there are several (`extend.cpp:1949-1951`).  The Bool is
`extendedSomething`; `none` is driver fuel exhaustion (unreachable). -/
def extendSelectorListCore (m : SubsetMap) (isReplace : Bool)
    (seen : List (List Simple)) : List Cplx → Option (List Cplx × Bool)
  | [] => some ([], false)
  | sel :: rest =>
    if ! complexSelectorHasExtension m sel then
      (extendSelectorListCore m isReplace seen rest).map (fun pr => (sel :: pr.1, pr.2))
    else
      match extendComplexSelector m isReplace sel seen true with
      | none => none
      | some extended =>
        let keepOriginalOnly := ! hasPlaceholderC sel &&
          ! extended.any (fun ch => seqEqOrdered ch (cplxToNodes sel))
        let added : List Cplx :=
          if keepOriginalOnly then [sel]
          else
            (if isReplace && decide (1 < extended.length) then extended.drop 1
             else extended).map nodesToCplx
        (extendSelectorListCore m isReplace seen rest).map
          (fun pr => (added ++ pr.1, true))

/-- `Extend::extendSelectorList` (`extend.cpp:1920-2020`): the per-selector
loop, then the early placeholder removal (`extend.cpp:1958-1961`) and the
head-rebuilding pass (`extend.cpp:1964-2017`). -/
def extendSelectorList (m : SubsetMap) (l : List Cplx) (isReplace : Bool)
    (seen : List (List Simple)) : Option (List Cplx × Bool) :=
  (extendSelectorListCore m isReplace seen l).map (fun pr =>
    ((removePlaceholders pr.1).map (rebuildHeads seen), pr.2))

/-- With an empty subset map no selector has an extension: every lookup is
empty. -/
theorem complexSelectorHasExtension_empty (c : Cplx) :
    complexSelectorHasExtension [] c = false := by
  simp [complexSelectorHasExtension, get_v]

/-- With an empty subset map the per-selector loop passes every selector
through unchanged and reports nothing extended. -/
theorem extendSelectorListCore_empty (isReplace : Bool) (seen : List (List Simple))
    (l : List Cplx) : extendSelectorListCore [] isReplace seen l = some (l, false) := by
  induction l with
  | nil => rfl
  | cons c rest ih =>
    rw [extendSelectorListCore, complexSelectorHasExtension_empty]
    simp [ih]

/-- A placeholder selector, for the C6 counterexample. -/
def cexPh : Cplx := [⟨Comb.ancestorOf, ⟨[Simple.placeholder "p"], []⟩⟩]

/-- Counterexample to claim C6 as stated: against the empty subset map,
`extendSelectorList` does not return a list holding a placeholder selector
unchanged — the early placeholder-removal pass (`extend.cpp:1958-1961`)
drops it even though nothing was extended. -/
theorem extendSelectorList_claimC6_counterexample :
    extendSelectorList [] [cexPh] false [] = some ([], false) ∧
      ¬ ([cexPh] = ([] : List Cplx)) := by
  refine ⟨by decide, by decide⟩

/-- Claim C6 (amended): for every selector list without placeholder
selectors and whose compounds carry no sources, extending against an empty
subset map returns the list unchanged: with no map entries
`complexSelectorHasExtension` is false for every complex selector, each
selector is passed through to the output identically, and the trailing
placeholder-removal and head-rebuilding passes leave such a list intact. -/
theorem extendSelectorList_empty_map (l : List Cplx)
    (hph : ∀ c ∈ l, hasPlaceholderC c = false)
    (hsrc : ∀ c ∈ l, ∀ lk ∈ c, lk.head.sources = []) :
    (∀ c ∈ l, complexSelectorHasExtension [] c = false) ∧
      extendSelectorList [] l false [] = some (l, false) := by
  refine ⟨fun c _ => complexSelectorHasExtension_empty c, ?_⟩
  rw [extendSelectorList, extendSelectorListCore_empty]
  have hrp : removePlaceholders l = l := by
    rw [removePlaceholders]
    apply List.filter_eq_self.mpr
    intro c hc
    simp [hph c hc]
  have hrb : l.map (rebuildHeads []) = l := by
    conv_rhs => rw [← List.map_id l]
    apply List.map_congr_left
    intro c hc
    rw [rebuildHeads]
    conv_rhs => rw [id, ← List.map_id c]
    apply List.map_congr_left
    intro lk hlk
    have hs := hsrc c hc lk hlk
    have : (lk.head.sels ∈ ([] : List (List Simple))) = False := by simp
    rw [if_neg (by simp)]
    cases lk with
    | mk comb head =>
      cases head with
      | mk sels srcs =>
        simp at hs
        rw [hs]
        rfl
  simp only [Option.map]
  rw [hrp, hrb]

/-- Witness for the amended C6 at a concrete one-selector list. -/
theorem extendSelectorList_empty_map_witness :
    (∀ c ∈ [cexSmall], hasPlaceholderC c = false) ∧
      (∀ c ∈ [cexSmall], ∀ lk ∈ c, lk.head.sources = []) ∧
      ((∀ c ∈ [cexSmall], complexSelectorHasExtension [] c = false) ∧
        extendSelectorList [] [cexSmall] false [] = some ([cexSmall], false)) :=
  ⟨by decide, by decide, extendSelectorList_empty_map [cexSmall] (by decide) (by decide)⟩

/-! ## The final unsatisfied-extend check (`extend.cpp:2086-2110`) and claim C7 -/

/-- Modelled from the spec: textual form of a simple selector (the
`to_string` machinery lives outside the repository's files). -/
def simpleStr : Simple → String
  | .typ n => n
  | .cls n => "." ++ n
  | .idSel n => "#" ++ n
  | .pseudoCls n => ":" ++ n
  | .pseudoElt n => "::" ++ n
  | .attr n => "[" ++ n ++ "]"
  | .placeholder n => "%" ++ n

/-- Textual form of a compound's simple selectors. -/
def cpdStr (sels : List Simple) : String := String.join (sels.map simpleStr)

/-- Textual form of a combinator, spaced for the nested output style. -/
def combStr : Comb → String
  | .ancestorOf => " "
  | .parentOf => " > "
  | .precedes => " ~ "
  | .adjacentTo => " + "
  | .reference => " / "

/-- Textual form of a complex selector. -/
def cplxStr : Cplx → String
  | [] => ""
  | l :: ls =>
    cpdStr l.head.sels ++
      String.join (ls.map (fun lk => combStr lk.comb ++ cpdStr lk.head.sels))

/-- One value row of the subset map as the final check reads it
(`extend.cpp:2095-2097`): the extender (`it.first`), the extendee
(`it.second`) and the extendee's `extended` and `is_optional` flags. -/
structure CheckEntry where
  extender : Cplx
  extendee : Cpd
  extended : Bool
  optional : Bool
deriving DecidableEq

/-- The unsatisfied-extend error message (`extend.cpp:2103-2106`). -/
def unsatisfiedMsg (sel : Cplx) (ext : Cpd) : String :=
  "\"" ++ cplxStr sel ++ "\" failed to @extend \"" ++ cpdStr ext.sels ++ "\".\n" ++
    "The selector \"" ++ cpdStr ext.sels ++ "\" was not found.\n" ++
    "Use \"@extend " ++ cpdStr ext.sels ++ " !optional\" if the" ++
    " extend should be able to fail."

/-- The final check of `Extend::operator()(Block*)` at the root block
(`extend.cpp:2093-2108`): walk the subset-map values; an entry whose
extendee is neither marked extended nor optional raises the fatal error —
`error(...)` throws, so the iteration stops at the first such entry. -/
def finalCheck : List CheckEntry → Except String Unit
  | [] => Except.ok ()
  | e :: rest =>
    if e.extended || e.optional then finalCheck rest
    else Except.error (unsatisfiedMsg e.extender e.extendee)

/-- Two concrete unsatisfied entries with different selectors. -/
def checkE1 : CheckEntry := ⟨[⟨Comb.ancestorOf, ⟨[Simple.cls "x1"], []⟩⟩],
  ⟨[Simple.cls "y1"], []⟩, false, false⟩

/-- The second unsatisfied entry. -/
def checkE2 : CheckEntry := ⟨[⟨Comb.ancestorOf, ⟨[Simple.cls "x2"], []⟩⟩],
  ⟨[Simple.cls "y2"], []⟩, false, false⟩

/-- Counterexample to claim C7 as stated: with two entries that are neither
extended nor optional, only the first raises its error — `error` throws
(`extend.cpp:2103`), so no error naming the second entry's extender and
extendee is ever produced. -/
theorem finalCheck_claimC7_counterexample :
    finalCheck [checkE1, checkE2] =
      Except.error (unsatisfiedMsg checkE1.extender checkE1.extendee) ∧
      ¬ (unsatisfiedMsg checkE1.extender checkE1.extendee =
          unsatisfiedMsg checkE2.extender checkE2.extendee) := by
  refine ⟨rfl, by decide⟩

/-- Claim C7 (amended): after the rule tree has been walked, the subset-map
iteration raises no error exactly when every entry's extendee is marked
extended or flagged optional; otherwise the first entry violating this
raises the fatal error whose message names its extender X and extendee Y in
the form `"X" failed to @extend "Y". The selector "Y" was not found.`. -/
theorem finalCheck_first_unsatisfied :
    (∀ entries : List CheckEntry,
      (finalCheck entries = Except.ok () ↔
        ∀ e ∈ entries, e.extended = true ∨ e.optional = true)) ∧
    (∀ (pre : List CheckEntry) (e : CheckEntry) (post : List CheckEntry),
      (∀ x ∈ pre, x.extended = true ∨ x.optional = true) →
      e.extended = false → e.optional = false →
      finalCheck (pre ++ e :: post) =
        Except.error (unsatisfiedMsg e.extender e.extendee)) := by
  constructor
  · intro entries
    induction entries with
    | nil => simp [finalCheck]
    | cons e rest ih =>
      rw [finalCheck]
      by_cases he : e.extended = true ∨ e.optional = true
      · have : (e.extended || e.optional) = true := by
          rcases he with h | h <;> simp [h]
        rw [if_pos this]
        simp only [List.mem_cons]
        constructor
        · intro h x hx
          rcases hx with hx | hx
          · subst hx; exact he
          · exact (ih.mp h) x hx
        · intro h
          exact ih.mpr (fun x hx => h x (Or.inr hx))
      · have : (e.extended || e.optional) = false := by
          push_neg at he
          simp [he.1, he.2]
        rw [this]
        simp only [Bool.false_eq_true, if_false]
        constructor
        · intro h
          exact absurd h (by simp)
        · intro h
          exact absurd (h e (by simp)) he
  · intro pre e post hpre he1 he2
    induction pre with
    | nil =>
      rw [List.nil_append, finalCheck, he1, he2]
      rfl
    | cons x xs ih =>
      rw [List.cons_append, finalCheck]
      have hx := hpre x (by simp)
      have : (x.extended || x.optional) = true := by
        rcases hx with h | h <;> simp [h]
      rw [if_pos this]
      exact ih (fun y hy => hpre y (by simp [hy]))


/-! ### Claim C4: the seen-set guard and termination of the extension driver -/

/-- Sufficient fuel demanded by a pending call: a complex call spends one
fuel unit itself and one in each nested compound call. -/
def extCallCost : ExtCall → Nat
  | ExtCall.cplx _ _ => 2
  | ExtCall.cpd _ => 1

/-- A monadic map over `Option` succeeds when the function succeeds on
every element. -/
theorem mapM_isSome {β γ : Type} (f : β → Option γ) :
    ∀ l : List β, (∀ x ∈ l, (f x).isSome = true) → (l.mapM f).isSome = true := by
  intro l
  induction l with
  | nil => intro _; rfl
  | cons x xs ih =>
    intro h
    rw [List.mapM_cons]
    have hx := h x (List.mem_cons_self x xs)
    cases hfx : f x with
    | none => rw [hfx] at hx; exact absurd hx (by simp)
    | some b =>
      have hxs := ih (fun y hy => h y (List.mem_cons_of_mem x hy))
      cases hmx : xs.mapM f with
      | none => rw [hmx] at hxs; exact absurd hxs (by simp)
      | some bs => simp [hfx, hmx]

/-- A successful holder group always reports the group's composite `pSels`
as its first component. -/
theorem extendGroup_fst (p : Cpd) (g : Cplx × List (Cplx × Cpd))
    (x : List Simple × Cplx) (h : extendGroup p g = some x) :
    x.1 = pSelsOf g := by
  rw [extendGroup] at h
  split at h
  · exact absurd h (by simp)
  · split at h
    · exact absurd h (by simp)
    · rw [← Option.some.inj h]

/-- Every holder entry's `pSels` lies in the finite `pSels` universe of the
map: the grouped entries form a filtered sublist of the stored entries. -/
theorem extendHolder_mem_universe (m : SubsetMap) (p : Cpd)
    (x : List Simple × Cplx) (hx : x ∈ extendHolder m p) :
    x.1 ∈ pSelsUniverse m := by
  rw [extendHolder] at hx
  obtain ⟨g, hg, hgx⟩ := List.mem_filterMap.mp hx
  rw [extendGroup_fst p g x hgx]
  rw [groupByExtender] at hg
  obtain ⟨k, _, hk⟩ := List.mem_map.mp hg
  have h2 : g.2 = (get_v m p.sels).filter (fun e => decide (e.1 = k)) := by
    rw [← hk]
  have hsub : List.Sublist
      ((m.filter (fun e => e.key.all (fun s => p.sels.contains s))).filter
        (fun e => decide ((e.extender, e.extendee).1 = k))) m :=
    ((List.filter_sublist _).trans (List.filter_sublist _))
  rw [pSelsUniverse, List.mem_toFinset]
  refine List.mem_map.mpr ⟨_, List.mem_sublists.mpr hsub, ?_⟩
  rw [pSelsOf, h2, get_v, List.filter_map, List.flatMap_map]
  rfl

/-- The compound case of the driver is the fold of `extendStep` over the
holder with the already-seen groups filtered out: a seen group contributes
nothing. -/
theorem extendF_cpd_filter (m : SubsetMap) (isReplace : Bool) (fuel : Nat)
    (p : Cpd) (seen : List (List Simple)) :
    extendF m isReplace (fuel + 1) (ExtCall.cpd p) seen =
      ((extendHolder m p).filter (fun x => decide (x.1 ∉ seen))).foldl
        (extendStep (extendF m isReplace fuel) seen) (some []) := by
  suffices h : ∀ (l : List (List Simple × Cplx)) (acc : Option (List (List WNode))),
      l.foldl (extendStep (extendF m isReplace fuel) seen) acc =
        (l.filter (fun x => decide (x.1 ∉ seen))).foldl
          (extendStep (extendF m isReplace fuel) seen) acc by
    rw [extendF]; exact h _ _
  intro l
  induction l with
  | nil => intro acc; rfl
  | cons x xs ih =>
    intro acc
    rw [List.foldl_cons, List.filter_cons]
    by_cases hx : x.1 ∈ seen
    · have hd : (decide (x.1 ∉ seen)) = false := by simp [hx]
      rw [hd]
      simp only [Bool.false_eq_true, if_false]
      have hstep : extendStep (extendF m isReplace fuel) seen acc x = acc := by
        cases acc with
        | none => rfl
        | some a =>
          show (if x.1 ∈ seen then some a else _) = some a
          rw [if_pos hx]
      rw [hstep, ih]
    · have hd : (decide (x.1 ∉ seen)) = true := by simp [hx]
      rw [hd]
      simp only [if_true]
      rw [List.foldl_cons, ih]

/-- Fuel sufficiency of the driver: whenever the fuel covers twice the
number of not-yet-seen universe elements plus the call's own cost, the
driver does not run out.  The key step is the compound case: each
non-skipped recursion strictly shrinks the unseen part of the finite
`pSels` universe. -/
theorem extendF_isSome (m : SubsetMap) (isReplace : Bool) :
    ∀ (fuel : Nat) (call : ExtCall) (seen : List (List Simple)),
      2 * ((pSelsUniverse m) \ seen.toFinset).card + extCallCost call ≤ fuel →
      (extendF m isReplace fuel call seen).isSome = true := by
  intro fuel
  induction fuel with
  | zero =>
    intro call seen h
    cases call with
    | cplx c isOrig => simp only [extCallCost] at h; exact absurd h (by omega)
    | cpd p => simp only [extCallCost] at h; exact absurd h (by omega)
  | succ fuel ih =>
    intro call seen h
    cases call with
    | cpd p =>
      rw [extendF]
      simp only [extCallCost] at h
      have hrec : ∀ x ∈ extendHolder m p, x.1 ∉ seen →
          (extendF m isReplace fuel (ExtCall.cplx x.2 false) (x.1 :: seen)).isSome = true := by
        intro x hx hnx
        refine ih (ExtCall.cplx x.2 false) (x.1 :: seen) ?_
        simp only [extCallCost]
        have hmem : x.1 ∈ (pSelsUniverse m) \ seen.toFinset :=
          Finset.mem_sdiff.mpr ⟨extendHolder_mem_universe m p x hx, by simpa using hnx⟩
        have hpos : 0 < ((pSelsUniverse m) \ seen.toFinset).card :=
          Finset.card_pos.mpr ⟨x.1, hmem⟩
        have hcard : ((pSelsUniverse m) \ (x.1 :: seen).toFinset).card =
            ((pSelsUniverse m) \ seen.toFinset).card - 1 := by
          rw [List.toFinset_cons, Finset.sdiff_insert, Finset.card_erase_of_mem hmem]
        rw [hcard]
        omega
      suffices hs : ∀ (l : List (List Simple × Cplx)),
          (∀ x ∈ l, x.1 ∉ seen →
            (extendF m isReplace fuel (ExtCall.cplx x.2 false) (x.1 :: seen)).isSome = true) →
          ∀ (a : List (List WNode)),
          ((l.foldl (extendStep (extendF m isReplace fuel) seen) (some a))).isSome = true by
        exact hs (extendHolder m p) hrec []
      intro l
      induction l with
      | nil => intro _ a; rfl
      | cons x xs ihl =>
        intro hcall a
        rw [List.foldl_cons]
        by_cases hx : x.1 ∈ seen
        · have hstep : extendStep (extendF m isReplace fuel) seen (some a) x = some a := by
            show (if x.1 ∈ seen then some a else _) = some a
            rw [if_pos hx]
          rw [hstep]
          exact ihl (fun y hy => hcall y (List.mem_cons_of_mem _ hy)) a
        · have hsome := hcall x (List.mem_cons_self _ _) hx
          cases hre : extendF m isReplace fuel (ExtCall.cplx x.2 false) (x.1 :: seen) with
          | none => rw [hre] at hsome; exact absurd hsome (by simp)
          | some res =>
            have hstep : extendStep (extendF m isReplace fuel) seen (some a) x =
                some (dedupAppend a res) := by
              show (if x.1 ∈ seen then some a else _) = _
              rw [if_neg hx, hre]
            rw [hstep]
            exact ihl (fun y hy => hcall y (List.mem_cons_of_mem _ hy)) _
    | cplx c isOrig =>
      rw [extendF]
      simp only [extCallCost] at h
      have hpos : ∀ nd ∈ cplxToNodes c,
          (extendPosition (extendF m isReplace fuel) seen c isOrig nd).isSome = true := by
        intro nd _
        cases nd with
        | comb cb => rfl
        | coll ns => rfl
        | sel s =>
          have hrec : (extendF m isReplace fuel (ExtCall.cpd (cplxHead s)) seen).isSome = true := by
            refine ih (ExtCall.cpd (cplxHead s)) seen ?_
            simp only [extCallCost]
            omega
          cases hre : extendF m isReplace fuel (ExtCall.cpd (cplxHead s)) seen with
          | none => rw [hre] at hrec; exact absurd hrec (by simp)
          | some extended => simp [extendPosition, hre]
      have hm : ((cplxToNodes c).mapM
          (extendPosition (extendF m isReplace fuel) seen c isOrig)).isSome = true :=
        mapM_isSome _ _ hpos
      cases hmm : (cplxToNodes c).mapM
          (extendPosition (extendF m isReplace fuel) seen c isOrig) with
      | none => rw [hmm] at hm; exact absurd hm (by simp)
      | some choices => rfl

/-- `.a` as a one-compound complex selector. -/
def selA : Cplx := [⟨Comb.ancestorOf, ⟨[Simple.cls "a"], []⟩⟩]

/-- `.b` as a one-compound complex selector. -/
def selB : Cplx := [⟨Comb.ancestorOf, ⟨[Simple.cls "b"], []⟩⟩]

/-- The subset map of `.a { @extend .b }` together with `.b { @extend .a }`:
key `.b` maps to extender `.a`, key `.a` maps to extender `.b`. -/
def mutualMap : SubsetMap :=
  [⟨[Simple.cls "b"], selA, ⟨[Simple.cls "b"], []⟩⟩,
   ⟨[Simple.cls "a"], selB, ⟨[Simple.cls "a"], []⟩⟩]

/-- **C4.** The seen-set guard of `extendCompoundSelector` and termination:
(1) a holder group whose composite `pSels` is already seen contributes
nothing — the fold step returns its accumulator unchanged; (2) a
non-skipped group's recursive `extendComplexSelector` call receives the
seen set extended with that `pSels`; (3) hence the compound case of the
driver equals the fold over the holder with all seen groups filtered out;
(4) the fuel bound drawn from the finite `pSels` universe always suffices,
so `extendComplexSelector` and `extendCompoundSelector` terminate with a
result (never exhaust their fuel); and (5) the mutually-extending scenario
`.a { @extend .b }`, `.b { @extend .a }` on the list `.a, .b` terminates
and yields exactly `.b, .a, .a, .b` — both originals with one extension
each, no blowup. -/
theorem extend_seen_guard_and_termination :
    (∀ (rec : ExtCall → List (List Simple) → Option (List (List WNode)))
       (seen : List (List Simple)) (acc : Option (List (List WNode)))
       (x : List Simple × Cplx), x.1 ∈ seen → extendStep rec seen acc x = acc) ∧
    (∀ (rec : ExtCall → List (List Simple) → Option (List (List WNode)))
       (seen : List (List Simple)) (a : List (List WNode))
       (x : List Simple × Cplx), x.1 ∉ seen →
      extendStep rec seen (some a) x =
        (rec (ExtCall.cplx x.2 false) (x.1 :: seen)).map (fun res => dedupAppend a res)) ∧
    (∀ (m : SubsetMap) (isReplace : Bool) (fuel : Nat) (p : Cpd)
       (seen : List (List Simple)),
      extendF m isReplace (fuel + 1) (ExtCall.cpd p) seen =
        ((extendHolder m p).filter (fun x => decide (x.1 ∉ seen))).foldl
          (extendStep (extendF m isReplace fuel) seen) (some [])) ∧
    (∀ (m : SubsetMap) (isReplace : Bool) (c : Cplx) (p : Cpd)
       (seen : List (List Simple)) (isOrig : Bool),
      (extendComplexSelector m isReplace c seen isOrig).isSome = true ∧
      (extendCompoundSelector m isReplace p seen).isSome = true) ∧
    extendSelectorList mutualMap [selA, selB] false [] =
      some ([selB, selA, selA, selB], true) := by
  refine ⟨?_, ?_, extendF_cpd_filter, ?_, by decide⟩
  · intro rec seen acc x hx
    cases acc with
    | none => rfl
    | some a =>
      show (if x.1 ∈ seen then some a else _) = some a
      rw [if_pos hx]
  · intro rec seen a x hx
    show (if x.1 ∈ seen then some a else _) = _
    rw [if_neg hx]
    cases rec (ExtCall.cplx x.2 false) (x.1 :: seen) with
    | none => rfl
    | some res => rfl
  · intro m isReplace c p seen isOrig
    constructor
    · refine extendF_isSome m isReplace _ _ _ ?_
      simp only [extendFuelBound, extCallCost]
      omega
    · refine extendF_isSome m isReplace _ _ _ ?_
      simp only [extendFuelBound, extCallCost]
      omega

end Sass
